import Mathlib

/-!
Shallow embedding of `computerphysik-review.py` (a single-file Python program
that assembles a review PDF from a student submission folder), together with
proofs about its metadata extraction, file classification, byte decoding,
template rendering and artifact merging.

Strings are modelled as Lean `String`/`List Char`; byte strings as `List Nat`
(one entry per byte).  External collaborators (clang-format, latexrun,
pdfunite) are modelled by their interfaces: the formatter as a
`String → Option String` oracle, the compiler as a success flag, and the merge
tool by its page-concatenation contract.
-/

namespace CPReview

/-! ### ASCII lower-casing, as `str.lower` acts on the file names used here -/

/-- Model of Python `str.lower` on a single character (ASCII fragment; the
file-name extensions and the literal `makefile` compared against are ASCII). -/
def pyLower (c : Char) : Char :=
  if 65 ≤ c.toNat ∧ c.toNat ≤ 90 then Char.ofNat (c.toNat + 32) else c

/-- Model of Python `str.lower` on a whole string. -/
def pyLowerStr (s : String) : String := ⟨s.data.map pyLower⟩

/-! ### posixpath helpers: `os.path.split`, `os.path.basename`,
`os.path.splitext`, `os.path.join` -/

/-- The part of `l` after its last `'/'` (all of `l` if there is none). -/
def afterLastSlash (l : List Char) : List Char :=
  (l.reverse.takeWhile (fun c => c ≠ '/')).reverse

/-- The part of the path up to and including the final slash. -/
def osHeadRaw (l : List Char) : List Char := l.take (l.length - (afterLastSlash l).length)

/-- The head of `os.path.split`: trailing slashes are stripped unless the
head consists of nothing but slashes. -/
def osHead (l : List Char) : List Char :=
  if (osHeadRaw l).isEmpty ∨ (osHeadRaw l).all (fun c => c = '/') then osHeadRaw l
  else ((osHeadRaw l).reverse.dropWhile (fun c => c = '/')).reverse

/-- Model of `os.path.split` (posixpath): split at the final slash; the head
keeps its trailing slashes only when it consists of nothing but slashes. -/
def osSplit (p : String) : String × String :=
  (⟨osHead p.data⟩, ⟨afterLastSlash p.data⟩)

/-- Model of `os.path.basename`. -/
def pyBasename (p : String) : String := (osSplit p).2

/-- The extension part of `os.path.splitext` (posixpath): the suffix starting
at the last dot of the final path segment, unless every character of the
segment before that dot is itself a dot (leading-dot files have no extension). -/
def extOf (l : List Char) : List Char :=
  let b := afterLastSlash l
  let revtail := b.reverse.takeWhile (fun c => c ≠ '.')
  if revtail.length = b.length then []
  else if (b.take (b.length - revtail.length - 1)).all (fun c => c = '.') then []
  else '.' :: revtail.reverse

/-- Model of `os.path.splitext`: root and extension. -/
def splitext (p : String) : String × String :=
  (⟨p.data.take (p.data.length - (extOf p.data).length)⟩, ⟨extOf p.data⟩)

/-- Model of `os.path.join` for two components (posixpath). -/
def joinPath (a b : String) : String :=
  if b.data.head? = some '/' then b
  else if a = "" ∨ a.data.getLast? = some '/' then a ++ b
  else a ++ "/" ++ b

/-! ### Python `str.replace` and the metadata extractor -/

/-- Worker of `pyReplace`, structurally recursive on a fuel bound so that it
reduces definitionally.  The fuel never runs out when it starts at the length
of the list, since each step consumes at least one character. -/
def pyReplaceGo (pat repl : List Char) : Nat → List Char → List Char
  | _, [] => []
  | 0, l => l
  | fuel + 1, c :: cs =>
    if pat.isPrefixOf (c :: cs) then
      repl ++ pyReplaceGo pat repl fuel ((c :: cs).drop (max 1 pat.length))
    else
      c :: pyReplaceGo pat repl fuel cs

/-- Model of Python `str.replace` for a non-empty pattern: scan left to right,
replacing each non-overlapping occurrence.  (The `max 1` clamp only guards the
recursion; every pattern used by the program is non-empty, where the clamp is
the identity.) -/
def pyReplace (pat repl : List Char) (l : List Char) : List Char :=
  pyReplaceGo pat repl l.length l

/-- `file_.replace('_', r'\_')` from `process_folder`. -/
def texEscape (s : String) : String := ⟨pyReplace ['_'] ['\\', '_'] s.data⟩

/-- `name.replace('_', ' ').replace('--', r' \and ')` from `get_name_and_week`. -/
def nicenameOf (s : String) : String :=
  ⟨pyReplace ['-', '-'] [' ', '\\', 'a', 'n', 'd', ' '] (pyReplace ['_'] [' '] s.data)⟩

/-- Model of `get_name_and_week`: split the path twice; the final segment is
the (raw) name, the segment before it the week string. -/
def get_name_and_week (path : String) : String × String × String :=
  let bn := osSplit path
  let iw := osSplit bn.1
  (bn.2, nicenameOf bn.2, iw.2)

/-! ### File classification (`process_folder` lines 151-155) -/

def EXT_C : List String := [".h", ".hpp", ".c", ".cpp"]

def EXT_IMG : List String := [".pdf"]

def EXT_TXT : List String := [".txt", ".dat"]

def EXT_DIFF : List String := [".diff", ".patch"]

/-- `os.path.splitext(x.lower())[1]`. -/
def lowerExt (x : String) : String := ⟨extOf (pyLowerStr x).data⟩

def is_c (x : String) : Bool := decide (lowerExt x ∈ EXT_C)

def is_txt (x : String) : Bool := decide (lowerExt x ∈ EXT_TXT)

def is_diff (x : String) : Bool := decide (lowerExt x ∈ EXT_DIFF)

def is_pdf (x : String) : Bool := decide (lowerExt x = ".pdf")

def is_make (x : String) : Bool := decide (pyLowerStr x = "makefile")

/-- A file is selected for embedding when the `if`/`elif` chain of
`process_folder` matches its basename. -/
def mintedSel (f : String) : Bool :=
  is_c (pyBasename f) || is_txt (pyBasename f) || is_make (pyBasename f) ||
    is_diff (pyBasename f)

/-- The categories of the specification's data model. -/
inductive Category
  | sourceCode
  | plainText
  | buildRecipe
  | patch
  | imageAttachment
  | ignored
deriving DecidableEq, Repr

/-- The category assigned to one input path: the `if`/`elif` chain on the
basename, the separate `.pdf` filter on the full path, `ignored` otherwise. -/
def classify (f : String) : Category :=
  if is_c (pyBasename f) then .sourceCode
  else if is_txt (pyBasename f) then .plainText
  else if is_make (pyBasename f) then .buildRecipe
  else if is_diff (pyBasename f) then .patch
  else if is_pdf f then .imageAttachment
  else .ignored

/-! ### Byte decoding (`decode`, lines 87-94) -/

/-- Worker of `utf8Decode`, structurally recursive on a fuel bound (each step
consumes at least one byte, so fuel starting at the list length suffices). -/
def utf8Go : Nat → List Nat → Option (List Char)
  | _, [] => some []
  | 0, _ :: _ => none
  | fuel + 1, b :: rest =>
    if b < 128 then (utf8Go fuel rest).map (fun cs => Char.ofNat b :: cs)
    else if 194 ≤ b ∧ b ≤ 223 then
      match rest with
      | c1 :: r =>
        if 128 ≤ c1 ∧ c1 ≤ 191 then
          (utf8Go fuel r).map (fun cs => Char.ofNat ((b - 192) * 64 + (c1 - 128)) :: cs)
        else none
      | [] => none
    else if 224 ≤ b ∧ b ≤ 239 then
      match rest with
      | c1 :: c2 :: r =>
        if (if b = 224 then 160 ≤ c1 ∧ c1 ≤ 191
            else if b = 237 then 128 ≤ c1 ∧ c1 ≤ 159
            else 128 ≤ c1 ∧ c1 ≤ 191) ∧ (128 ≤ c2 ∧ c2 ≤ 191) then
          (utf8Go fuel r).map
            (fun cs => Char.ofNat ((b - 224) * 4096 + (c1 - 128) * 64 + (c2 - 128)) :: cs)
        else none
      | _ => none
    else if 240 ≤ b ∧ b ≤ 244 then
      match rest with
      | c1 :: c2 :: c3 :: r =>
        if (if b = 240 then 144 ≤ c1 ∧ c1 ≤ 191
            else if b = 244 then 128 ≤ c1 ∧ c1 ≤ 143
            else 128 ≤ c1 ∧ c1 ≤ 191) ∧ (128 ≤ c2 ∧ c2 ≤ 191) ∧ (128 ≤ c3 ∧ c3 ≤ 191) then
          (utf8Go fuel r).map
            (fun cs =>
              Char.ofNat ((b - 240) * 262144 + (c1 - 128) * 4096 + (c2 - 128) * 64 + (c3 - 128)) :: cs)
        else none
      | _ => none
    else none

/-- Strict UTF-8 decoding of a byte list (as Python `bytes.decode('utf8')`):
rejects truncated sequences, stray continuation bytes, overlong encodings,
surrogates and code points above `U+10FFFF`. -/
def utf8Decode (s : List Nat) : Option (List Char) := utf8Go s.length s

/-- `bytes.decode('latin1')`: total, each byte maps to the same code point. -/
def latin1Decode (s : List Nat) : List Char := s.map Char.ofNat

/-- `bytes.decode('ascii')`: fails on any byte of 128 or more. -/
def asciiStrictDecode (s : List Nat) : Option (List Char) :=
  if s.all (fun b => b < 128) then some (s.map Char.ofNat) else none

/-- `bytes.decode('ascii', 'ignore')`: bytes of 128 or more are dropped. -/
def asciiIgnoreDecode (s : List Nat) : List Char :=
  (s.filter (fun b => b < 128)).map Char.ofNat

/-- `s.decode(encoding)` for the three codec names the program mentions. -/
def codecDecode (enc : String) (s : List Nat) : Option String :=
  if enc = "utf8" then (utf8Decode s).map (fun l => ⟨l⟩)
  else if enc = "latin1" then some ⟨latin1Decode s⟩
  else if enc = "ascii" then (asciiStrictDecode s).map (fun l => ⟨l⟩)
  else none

/-- The program's `decode` as written: the lossy-ASCII `return` is indented
inside the `for` body, so the first loop iteration always returns — either the
first encoding's result or the lossy ASCII fallback.  Later entries of
`encodings` are never attempted; an empty tuple falls off the loop and returns
`None`. -/
def decode (s : List Nat) (encodings : List String := ["utf8", "latin1", "ascii"]) :
    Option String :=
  match encodings with
  | [] => none
  | enc :: _ =>
    match codecDecode enc s with
    | some t => some t
    | none => some (asciiIgnoreDecode s |> (fun l => ⟨l⟩))

/-- The decoding policy as the spec words it: attempt every encoding of the
priority list in order, return the first success, and use the lossy ASCII
fallback only after all entries have failed. -/
def decodeSpecTry (s : List Nat) : List String → Option String
  | [] => some ⟨asciiIgnoreDecode s⟩
  | enc :: rest =>
    match codecDecode enc s with
    | some t => some t
    | none => decodeSpecTry s rest

/-! ### Python `int(str)` (used as `int(week)` at line 189) -/

def isPyWS (c : Char) : Bool :=
  c = ' ' || c = '\t' || c = '\n' || c = '\r' || c = '\x0b' || c = '\x0c'

def stripPyWS (l : List Char) : List Char :=
  ((l.dropWhile isPyWS).reverse.dropWhile isPyWS).reverse

def digitVal (c : Char) : Nat := c.toNat - 48

/-- Digit run of a Python integer literal: decimal digits, optionally
separated by single underscores (structurally recursive on a fuel bound that
never runs out when it starts at the list length). -/
def parseDigitsGo : Nat → Nat → List Char → Option Nat
  | _, acc, [] => some acc
  | 0, _, _ :: _ => none
  | fuel + 1, acc, '_' :: c :: rest =>
    if c.isDigit then parseDigitsGo fuel (acc * 10 + digitVal c) rest else none
  | fuel + 1, acc, c :: rest =>
    if c.isDigit then parseDigitsGo fuel (acc * 10 + digitVal c) rest else none

def parseDigits : List Char → Option Nat
  | c :: rest => if c.isDigit then parseDigitsGo rest.length (digitVal c) rest else none
  | [] => none

/-- Model of Python `int(s)` for a decimal string: optional surrounding
whitespace, optional sign, then a digit run.  (Restricted to ASCII digits and
whitespace, which covers every string this program can feed it.) -/
def pyIntParse (s : String) : Option Int :=
  match stripPyWS s.data with
  | '+' :: rest => (parseDigits rest).map (fun n => (n : Int))
  | '-' :: rest => (parseDigits rest).map (fun n => -(n : Int))
  | l => (parseDigits l).map (fun n => (n : Int))

/-! ### The LaTeX template (`RAW_TEMPLATE`) and its jinja2 expansion

The jinja2 environment uses delimiters `%< >%` (blocks) and `<< >>`
(variables).  Rendering substitutes `<< week >>` and `<< name >>` in the
header and expands the single `for` block once per entry of `files`, in
order; everything else is literal text.  The template text is split below at
exactly those holes. -/

/-- Literal template text before `<< week >>`. -/
def tmplH1 : String :=
  "\n\\documentclass[11pt, ngerman, DIV=18, parskip=full]\x7bscrartcl\x7d\n\n\\usepackage\x7bbabel\x7d\n\\usepackage[colorlinks=true, urlcolor=blue]\x7bhyperref\x7d\n\\usepackage[utf8x]\x7bluainputenc\x7d\n\\usepackage[charter]\x7bmathdesign\x7d\n\\usepackage\x7bberasans\x7d\n\\usepackage\x7bberamono\x7d\n\\usepackage\x7bminted\x7d\n\\usepackage\x7bmulticol\x7d\n\\usepackage\x7bbooktabs\x7d\n\n\\subject\x7bAbgabe in Computerphysik (Sommersemester 2016)\x7d\n\\title\x7bWoche "

/-- Literal template text between `<< week >>` and `<< name >>`. -/
def tmplH2 : String := "\x7d\n\\author\x7b%\n    "

/-- Literal template text between `<< name >>` and the `for` block tag. -/
def tmplH3 : String :=
  "\n\x7d\n\\publishers\x7b%\n    Tutor: Martin Ueding\n    (\\href\x7bmailto:tutorium@martin-ueding.de\x7d\x7btutorium@martin-ueding.de\x7d)\n\x7d\n\n\\begin\x7bdocument\x7d\n\n\\maketitle\n\n\\begin\x7bcenter\x7d\n    \\begin\x7btabular\x7d\x7bllr\x7d\n        \\toprule\n        Teil & erreicht & m\u00f6glich \\\\\n        \\midrule\n        Aufgaben && 18 \\\\\n        Stil && 2 \\\\\n        \\midrule\n        Summe && 20 \\\\\n        \\bottomrule\n    \\end\x7btabular\x7d\n\n    \\vspace\x7b2ex\x7d\n\n    \\begin\x7bminipage\x7d\x7b.5\\textwidth\x7d\n        Dies ist der Quelltext, den du abgegeben hast. Ich habe ihn mit meinem\n        Standard-Stil umformatiert, damit ich es bei der Korrektur etwas einfacher\n        habe. Der Inhalt vom Code hat sich aber nicht ge\u00e4ndert.\n    \\end\x7bminipage\x7d\n\\end\x7bcenter\x7d\n\n"

/-- The pieces of the loop body around `<< basename >>`, `<< language >>`
and `<< filename >>`. -/
def tmplB1 : String := "\n\\section*\x7b"

def tmplB2 : String :=
  "\x7d\n\n\\inputminted[\n    linenos=true,\n    fontfamily=tt,\n    fontsize=\\small,\n    frame=none,\n]\x7b"

def tmplB3 : String := "\x7d\x7b"

def tmplB4 : String := "\x7d\n\\clearpage\n"

/-- Literal template text after the `endfor` tag. -/
def tmplF : String :=
  "\n\n\\section*\x7bZus\u00e4tzliche Kommentare\x7d\n\n\\end\x7bdocument\x7d\n"

/-- One expanded loop body for the entry `(basename, filename, language)`. -/
def entryBlock (e : String × String × String) : String :=
  tmplB1 ++ e.1 ++ tmplB2 ++ e.2.2 ++ tmplB3 ++ e.2.1 ++ tmplB4

/-- `template.render(name=nicename, week=int(week), files=for_minted)`:
substitute the two header variables and expand the loop body once per entry,
in entry order. -/
def renderDoc (name : String) (week : Int) (entries : List (String × String × String)) :
    String :=
  tmplH1 ++ toString week ++ tmplH2 ++ name ++ tmplH3 ++
    String.join (entries.map entryBlock) ++ tmplF

/-! ### The pipeline of `process_folder` -/

/-- The failure modes of one run, in the specification's taxonomy.
`normalization` is the uncaught `CalledProcessError` of `clang-format`,
`emptySubmission` the `assert len(for_minted) > 0`, `metadata` the
`ValueError` of `int(week)`, and `compile` the typesetting failure. -/
inductive PyError
  | normalization (file : String)
  | emptySubmission
  | metadata (weekStr : String)
  | compile
deriving DecidableEq, Repr

/-- The `for_minted` entry built for a selected file: escaped label, path of
the copy inside the scratch directory, and language tag — one branch of the
`if`/`elif` chain. -/
def entryFor (tempdir f : String) : String × String × String :=
  if is_c (pyBasename f) then (texEscape f, joinPath tempdir f, "c")
  else if is_txt (pyBasename f) then (texEscape f, joinPath tempdir f, "text")
  else if is_make (pyBasename f) then (texEscape f, joinPath tempdir f, "make")
  else (texEscape f, joinPath tempdir f, "diff")

/-- The classification loop of `process_folder`: build `for_minted` in input
order; a C/C++ file is first run through the external formatter (modelled by
`fmt`), whose failure aborts the run. -/
def buildForMinted (fmt : String → Option String) (tempdir folder : String) :
    List String → Except PyError (List (String × String × String))
  | [] => .ok []
  | f :: rest =>
    if is_c (pyBasename f) then
      match fmt (joinPath folder f) with
      | none => .error (.normalization f)
      | some _ => (buildForMinted fmt tempdir folder rest).map (fun l => entryFor tempdir f :: l)
    else if mintedSel f then
      (buildForMinted fmt tempdir folder rest).map (fun l => entryFor tempdir f :: l)
    else buildForMinted fmt tempdir folder rest

/-- Everything a successful run of `process_folder` determines. -/
structure RunResult where
  rawName : String
  displayName : String
  weekStr : String
  weekId : Int
  forMinted : List (String × String × String)
  pdfFiles : List String
  rendered : String
  texBasename : String
  pdfBasename : String
  texPath : String
  compiledPdfPath : String
  mergeCmd : List String
  outputPath : String
deriving DecidableEq, Repr

/-- Model of `process_folder(folder, files, template)`.  `folder` stands for
`os.path.abspath(folder)` (the caller passes `os.getcwd()`, already absolute
and normalised); `tempdir` is the scratch directory; `fmt` is the external
formatter; `compileOk` tells whether the external typesetting run succeeds.
The merge command `pdfunite <tempdir pdf> <attachments...> <output pdf>` is
issued unconditionally, also for an empty attachment list. -/
def process_folder (fmt : String → Option String) (compileOk : Bool)
    (tempdir folder : String) (files : List String) : Except PyError RunResult :=
  let nnw := get_name_and_week folder
  let pdfFiles := files.filter (fun f => is_pdf f)
  match buildForMinted fmt tempdir folder files with
  | .error e => .error e
  | .ok forMinted =>
    if forMinted.isEmpty then .error .emptySubmission
    else
      match pyIntParse nnw.2.2 with
      | none => .error (.metadata nnw.2.2)
      | some wk =>
        let rendered := renderDoc nnw.2.1 wk forMinted
        let texB := "Review-" ++ nnw.1 ++ "-" ++ nnw.2.2 ++ ".tex"
        let pdfB := "Review-" ++ nnw.1 ++ "-" ++ nnw.2.2 ++ ".pdf"
        if compileOk then
          .ok { rawName := nnw.1, displayName := nnw.2.1, weekStr := nnw.2.2,
                weekId := wk, forMinted := forMinted, pdfFiles := pdfFiles,
                rendered := rendered, texBasename := texB, pdfBasename := pdfB,
                texPath := joinPath tempdir texB,
                compiledPdfPath := joinPath tempdir pdfB,
                mergeCmd := "pdfunite" :: joinPath tempdir pdfB :: (pdfFiles ++ [pdfB]),
                outputPath := pdfB }
        else .error .compile

/-! ### The external merge tool

Modelled from the spec: the document-merge collaborator concatenates the
pages of its input files, in argument order, into the file named by its final
argument. -/

/-- The input files of a `pdfunite` command line. -/
def pdfuniteInputs (cmd : List String) : List String := (cmd.drop 1).dropLast

/-- The destination file of a `pdfunite` command line. -/
def pdfuniteDest (cmd : List String) : String := cmd.getLastD ""

/-- The page sequence the merge tool writes, given the page sequences of the
existing files (`pages`). -/
def mergedPages (pages : String → List Nat) (cmd : List String) : List Nat :=
  ((pdfuniteInputs cmd).map pages).flatten

/-! ### `order_files` (lines 97-116)

The function consults a module-level name `EXTENSIONS` that is defined
nowhere in the file, so as written it raises `NameError` as soon as the first
file is examined. -/

/-- Modelled from the spec: the priority list `EXTENSIONS` is missing from
the source; per the spec's fixed extension-priority order (header before
implementation) it is the C/C++ family of `EXT_C`, in that order. -/
def EXTENSIONS : List String := [".h", ".hpp", ".c", ".cpp"]

/-- `order_files` as actually written: evaluating `ext not in EXTENSIONS`
raises `NameError` on the first iteration, so every non-empty input fails
(`none`); only the empty input completes and returns the empty result. -/
def order_files_code (files : List String) : Option (List String) :=
  if files.isEmpty then some [] else none

/-- Insert one extension into the `roots` dict (a key-ordered association
list, as a Python dict iterates in insertion order). -/
def addRoot : List (String × List String) → String → String → List (String × List String)
  | [], r, e => [(r, [e])]
  | (r0, es) :: rest, r, e =>
    if r0 = r then (r0, es ++ [e]) :: rest else (r0, es) :: addRoot rest r e

/-- One iteration of the first loop of `order_files`: skip files whose
extension is not in the priority list, otherwise record the extension under
the file's root. -/
def rootStep (acc : List (String × List String)) (f : String) :
    List (String × List String) :=
  if (splitext f).2 ∈ EXTENSIONS then addRoot acc (splitext f).1 (splitext f).2 else acc

/-- The first loop of `order_files`: group the extensions of the relevant
files under their root. -/
def buildRoots (files : List String) : List (String × List String) :=
  files.foldl rootStep []

/-- `order_files` with the modelled `EXTENSIONS`: sort the grouped roots
(`sorted(roots.items())`), then emit each group's files in the priority order
of `EXTENSIONS`. -/
def order_files (files : List String) : List String :=
  ((buildRoots files).insertionSort (fun a b => a.1 ≤ b.1)).flatMap
    (fun re => (EXTENSIONS.filter (fun e => decide (e ∈ re.2))).map (fun e => re.1 ++ e))

/-- The roots of the files `order_files` keeps, in input order. -/
def relevantRoots (files : List String) : List String :=
  files.filterMap (fun f => if (splitext f).2 ∈ EXTENSIONS then some (splitext f).1 else none)

/-- The sorted duplicate-free base names: one output group per entry. -/
def groupKeys (files : List String) : List String :=
  (relevantRoots files).dedup.insertionSort (fun a b => a ≤ b)

/-- The file names of the output group of base name `r`: those of its
extensions that occur in `files`, in the fixed priority order. -/
def blockFor (files : List String) (r : String) : List String :=
  (EXTENSIONS.filter (fun e => decide (∃ f ∈ files, splitext f = (r, e)))).map
    (fun e => r ++ e)

/-! ### Basic string and character lemmas -/

theorem data_mk (l : List Char) : (⟨l⟩ : String).data = l := rfl

theorem mk_data (s : String) : (⟨s.data⟩ : String) = s := rfl

theorem toNat_ofNat_valid (n : Nat) (h : n.isValidChar) : (Char.ofNat n).toNat = n := by
  simp [Char.ofNat, h, Char.toNat, Char.ofNatAux, UInt32.toNat]

theorem charToNat_inj (a b : Char) (h : a.toNat = b.toNat) : a = b :=
  Char.ext (UInt32.ext h)

theorem pyLower_toNat (c : Char) :
    (65 ≤ c.toNat ∧ c.toNat ≤ 90 ∧ (pyLower c).toNat = c.toNat + 32) ∨
      (¬(65 ≤ c.toNat ∧ c.toNat ≤ 90) ∧ pyLower c = c) := by
  unfold pyLower
  split
  · rename_i h
    exact Or.inl ⟨h.1, h.2, toNat_ofNat_valid (c.toNat + 32) (Or.inl (by omega))⟩
  · rename_i h
    exact Or.inr ⟨h, rfl⟩

theorem pyLower_slash (c : Char) : (pyLower c = '/') ↔ (c = '/') := by
  rcases pyLower_toNat c with ⟨h1, _, h3⟩ | ⟨_, h2⟩
  · constructor
    · intro he
      rw [he] at h3
      have hs : ('/' : Char).toNat = 47 := by decide
      omega
    · intro he
      subst he
      simp at h1
  · rw [h2]

theorem pyLower_idem (c : Char) : pyLower (pyLower c) = pyLower c := by
  rcases pyLower_toNat c with ⟨h1, h2, h3⟩ | ⟨_, h2⟩
  · rcases pyLower_toNat (pyLower c) with ⟨g1, g2, _⟩ | ⟨_, g2⟩
    · omega
    · exact g2
  · rw [h2]
    exact h2

theorem map_pyLower_idem (l : List Char) :
    (l.map pyLower).map pyLower = l.map pyLower := by
  rw [List.map_map]
  exact List.map_congr_left (fun c _ => pyLower_idem c)

/-! ### Lemmas about `afterLastSlash` and `osSplit` -/

theorem takeWhile_append_of_all {p : Char → Bool} (xs ys : List Char)
    (h : ∀ c ∈ xs, p c) : (xs ++ ys).takeWhile p = xs ++ ys.takeWhile p := by
  induction xs with
  | nil => rfl
  | cons c cs ih =>
    have hc := h c (by simp)
    simp [List.takeWhile_cons, hc, ih (fun d hd => h d (by simp [hd]))]

theorem afterLastSlash_append (x nd : List Char) (h : '/' ∉ nd) :
    afterLastSlash (x ++ '/' :: nd) = nd := by
  unfold afterLastSlash
  rw [List.reverse_append, List.reverse_cons, List.append_assoc]
  rw [takeWhile_append_of_all _ _ (fun c hc => by
    simp only [ne_eq, decide_eq_true_eq]
    intro he
    exact h (he ▸ List.mem_reverse.mp hc))]
  simp

theorem afterLastSlash_of_noSlash (l : List Char) (h : '/' ∉ l) :
    afterLastSlash l = l := by
  unfold afterLastSlash
  rw [List.takeWhile_eq_self_iff.mpr, List.reverse_reverse]
  intro c hc
  simp only [ne_eq, decide_eq_true_eq]
  intro he
  exact h (he ▸ List.mem_reverse.mp hc)

theorem noSlash_afterLastSlash (l : List Char) : '/' ∉ afterLastSlash l := by
  unfold afterLastSlash
  intro hmem
  have := List.mem_takeWhile_imp (List.mem_reverse.mp hmem)
  simp at this

theorem afterLastSlash_idem (l : List Char) :
    afterLastSlash (afterLastSlash l) = afterLastSlash l :=
  afterLastSlash_of_noSlash _ (noSlash_afterLastSlash l)

theorem takeWhile_noSlash_map_pyLower (m : List Char) :
    (m.map pyLower).takeWhile (fun c => c ≠ '/')
      = (m.takeWhile (fun c => c ≠ '/')).map pyLower := by
  induction m with
  | nil => rfl
  | cons c cs ih =>
    by_cases hc : c = '/'
    · subst hc
      have hl : pyLower '/' = '/' := by decide
      simp only [List.map_cons, List.takeWhile_cons, hl]
      rw [if_neg (by simp), if_neg (by simp)]
      rfl
    · have h1 : pyLower c ≠ '/' := fun he => hc ((pyLower_slash c).mp he)
      simp only [List.map_cons, List.takeWhile_cons]
      rw [if_pos (by simp [h1]), if_pos (by simp [hc]), List.map_cons, ih]

theorem afterLastSlash_map_pyLower (l : List Char) :
    afterLastSlash (l.map pyLower) = (afterLastSlash l).map pyLower := by
  unfold afterLastSlash
  rw [← List.map_reverse, takeWhile_noSlash_map_pyLower, List.map_reverse]

theorem pyBasename_data (p : String) : (pyBasename p).data = afterLastSlash p.data := rfl

/-- The head returned by `osSplit` for a path `A ++ "/" ++ n` whose final
segment `n` is slash-free, provided `A` has a non-slash character and does not
end in a slash. -/
theorem osSplit_concat (A n : String) (hn : '/' ∉ n.data)
    (hA : ∃ c ∈ A.data, c ≠ '/') (hA2 : A.data.getLast? ≠ some '/') :
    osSplit (A ++ "/" ++ n) = (A, n) := by
  have hdata : (A ++ "/" ++ n).data = (A.data ++ ['/']) ++ n.data := by
    simp [String.data_append]
  have htail : afterLastSlash (A ++ "/" ++ n).data = n.data := by
    rw [hdata]
    have h2 : (A.data ++ ['/']) ++ n.data = A.data ++ '/' :: n.data := by simp
    rw [h2]
    exact afterLastSlash_append _ _ hn
  have hraw : osHeadRaw (A ++ "/" ++ n).data = A.data ++ ['/'] := by
    unfold osHeadRaw
    rw [htail, hdata]
    have hlen : ((A.data ++ ['/']) ++ n.data).length - n.data.length
        = (A.data ++ ['/']).length := by
      simp
      omega
    rw [hlen, List.take_left]
  have hne : ¬ ((A.data ++ ['/']).isEmpty = true ∨
      ((A.data ++ ['/']).all fun c => decide (c = '/')) = true) := by
    push_neg
    constructor
    · simp [List.isEmpty_iff]
    · obtain ⟨c, hc, hcne⟩ := hA
      intro hall
      have := List.all_eq_true.mp hall c (by simp [hc])
      simp only [decide_eq_true_eq] at this
      exact hcne this
  have hhead : osHead (A ++ "/" ++ n).data = A.data := by
    unfold osHead
    rw [hraw, if_neg hne]
    have hrev : (A.data ++ ['/']).reverse = '/' :: A.data.reverse := by simp
    rw [hrev]
    have hdrop : List.dropWhile (fun c => decide (c = '/')) ('/' :: A.data.reverse)
        = A.data.reverse := by
      rw [List.dropWhile_cons, if_pos (by decide)]
      cases hAr : A.data.reverse with
      | nil => rfl
      | cons c cs =>
        rw [List.dropWhile_cons]
        have hc : c ≠ '/' := by
          intro he
          apply hA2
          rw [← List.head?_reverse, hAr, he]
          rfl
        simp [hc]
    rw [hdrop, List.reverse_reverse]
  unfold osSplit
  rw [hhead, htail]

/-- `get_name_and_week` on a path whose two trailing segments are `w` and
`n`: the name is the final segment, the week string the one before it. -/
theorem get_name_and_week_eq (base w n : String) (hw1 : '/' ∉ w.data)
    (hw2 : w ≠ "") (hn1 : '/' ∉ n.data) :
    get_name_and_week (base ++ "/" ++ w ++ "/" ++ n) = (n, nicenameOf n, w) := by
  have hwd : w.data ≠ [] := fun h => hw2 (String.ext h)
  obtain ⟨c, hc⟩ := List.exists_mem_of_ne_nil w.data hwd
  have hsplit1 : osSplit (base ++ "/" ++ w ++ "/" ++ n) = (base ++ "/" ++ w, n) := by
    apply osSplit_concat _ _ hn1
    · exact ⟨c, by simp [String.data_append, hc], fun he => hw1 (he ▸ hc)⟩
    · have hL : ((base ++ "/" ++ w).data).getLast? = w.data.getLast? := by
        rw [String.data_append]
        exact List.getLast?_append_of_ne_nil _ hwd
      rw [hL]
      intro hlast
      have hm : '/' ∈ w.data.getLast? := by rw [hlast]; rfl
      obtain ⟨hne', heq⟩ := List.mem_getLast?_eq_getLast hm
      exact hw1 (by rw [heq]; exact List.getLast_mem hne')
  have hsplit2 : (osSplit (base ++ "/" ++ w)).2 = w := by
    show (⟨afterLastSlash (base ++ "/" ++ w).data⟩ : String) = w
    have hd : (base ++ "/" ++ w).data = base.data ++ '/' :: w.data := by
      simp [String.data_append]
    rw [hd, afterLastSlash_append _ _ hw1]
  unfold get_name_and_week
  rw [hsplit1]
  simp only [hsplit2]

/-! ### Behaviour of `buildForMinted` and `process_folder` -/

theorem min_sel_of_is_c {f : String} (h : is_c (pyBasename f)) : mintedSel f = true := by
  simp [mintedSel, h]

/-- With a formatter that always succeeds, the classification loop returns
exactly the selected files, in input order, through `entryFor`. -/
theorem buildForMinted_ok (fmt : String → Option String) (td folder : String)
    (files : List String) (hfmt : ∀ x, (fmt x).isSome) :
    buildForMinted fmt td folder files
      = .ok ((files.filter mintedSel).map (entryFor td)) := by
  induction files with
  | nil => rfl
  | cons f rest ih =>
    by_cases hc : is_c (pyBasename f)
    · obtain ⟨v, hv⟩ := Option.isSome_iff_exists.mp (hfmt (joinPath folder f))
      simp [buildForMinted, hc, hv, ih, List.filter_cons, min_sel_of_is_c hc, Except.map]
    · by_cases hs : mintedSel f
      · simp [buildForMinted, hc, hs, ih, List.filter_cons, Except.map]
      · simp [buildForMinted, hc, hs, ih, List.filter_cons]

/-- With an arbitrary formatter, the classification loop either returns the
selected files or fails with a normalization error naming a selected file. -/
theorem buildForMinted_spec (fmt : String → Option String) (td folder : String)
    (files : List String) :
    buildForMinted fmt td folder files
        = .ok ((files.filter mintedSel).map (entryFor td)) ∨
      ∃ f ∈ files, mintedSel f = true ∧
        buildForMinted fmt td folder files = .error (.normalization f) := by
  induction files with
  | nil => exact Or.inl rfl
  | cons f rest ih =>
    by_cases hc : is_c (pyBasename f)
    · cases hv : fmt (joinPath folder f) with
      | none =>
        refine Or.inr ⟨f, by simp, min_sel_of_is_c hc, ?_⟩
        simp [buildForMinted, hc, hv]
      | some v =>
        rcases ih with hok | ⟨g, hg, hgs, herr⟩
        · refine Or.inl ?_
          simp [buildForMinted, hc, hv, hok, List.filter_cons, min_sel_of_is_c hc,
            Except.map]
        · refine Or.inr ⟨g, by simp [hg], hgs, ?_⟩
          simp [buildForMinted, hc, hv, herr, Except.map]
    · by_cases hs : mintedSel f
      · rcases ih with hok | ⟨g, hg, hgs, herr⟩
        · refine Or.inl ?_
          simp [buildForMinted, hc, hs, hok, List.filter_cons, Except.map]
        · refine Or.inr ⟨g, by simp [hg], hgs, ?_⟩
          simp [buildForMinted, hc, hs, herr, Except.map]
      · rcases ih with hok | ⟨g, hg, hgs, herr⟩
        · refine Or.inl ?_
          simp [buildForMinted, hc, hs, hok, List.filter_cons]
        · refine Or.inr ⟨g, by simp [hg], hgs, ?_⟩
          simp [buildForMinted, hc, hs, herr]

/-- The `RunResult` a successful run produces, as a function of its inputs. -/
def successResult (td folder : String) (files : List String)
    (l : List (String × String × String)) (wk : Int) : RunResult :=
  { rawName := (get_name_and_week folder).1
    displayName := (get_name_and_week folder).2.1
    weekStr := (get_name_and_week folder).2.2
    weekId := wk
    forMinted := l
    pdfFiles := files.filter (fun f => is_pdf f)
    rendered := renderDoc (get_name_and_week folder).2.1 wk l
    texBasename :=
      "Review-" ++ (get_name_and_week folder).1 ++ "-" ++ (get_name_and_week folder).2.2 ++ ".tex"
    pdfBasename :=
      "Review-" ++ (get_name_and_week folder).1 ++ "-" ++ (get_name_and_week folder).2.2 ++ ".pdf"
    texPath := joinPath td
      ("Review-" ++ (get_name_and_week folder).1 ++ "-" ++ (get_name_and_week folder).2.2 ++ ".tex")
    compiledPdfPath := joinPath td
      ("Review-" ++ (get_name_and_week folder).1 ++ "-" ++ (get_name_and_week folder).2.2 ++ ".pdf")
    mergeCmd :=
      "pdfunite" ::
        joinPath td
          ("Review-" ++ (get_name_and_week folder).1 ++ "-" ++ (get_name_and_week folder).2.2 ++ ".pdf") ::
          (files.filter (fun f => is_pdf f) ++
            ["Review-" ++ (get_name_and_week folder).1 ++ "-" ++ (get_name_and_week folder).2.2 ++ ".pdf"])
    outputPath :=
      "Review-" ++ (get_name_and_week folder).1 ++ "-" ++ (get_name_and_week folder).2.2 ++ ".pdf" }

/-- What `process_folder` does once the classification loop has succeeded. -/
theorem process_folder_eq (fmt : String → Option String) (compileOk : Bool)
    (td folder : String) (files : List String) (l : List (String × String × String))
    (h : buildForMinted fmt td folder files = .ok l) :
    process_folder fmt compileOk td folder files =
      if l.isEmpty then .error .emptySubmission
      else
        match pyIntParse (get_name_and_week folder).2.2 with
        | none => .error (.metadata (get_name_and_week folder).2.2)
        | some wk =>
          if compileOk then .ok (successResult td folder files l wk)
          else .error .compile := by
  unfold process_folder successResult
  rw [h]

/-- `process_folder` propagates a failure of the classification loop. -/
theorem process_folder_err (fmt : String → Option String) (compileOk : Bool)
    (td folder : String) (files : List String) (e : PyError)
    (h : buildForMinted fmt td folder files = .error e) :
    process_folder fmt compileOk td folder files = .error e := by
  unfold process_folder
  rw [h]

/-! ### Claim C1 -/

/-- C1, counterexample: the claim reads the name from the segment before the
week.  The code does the opposite: on a path ending in `.../Ueding/01` it
returns the raw name `"01"` and the week string `"Ueding"`, which does not
parse as an integer — not `(rawName = "Ueding", weekId = 1)`. -/
theorem c1_cex :
    get_name_and_week "/home/mu/Abgaben/Ueding/01" = ("01", "01", "Ueding") ∧
      (get_name_and_week "/home/mu/Abgaben/Ueding/01").1 ≠ "Ueding" ∧
      pyIntParse (get_name_and_week "/home/mu/Abgaben/Ueding/01").2.2 = none :=
  ⟨by decide, by decide, by decide⟩

/-- C1, amended: the week is the second-to-last path segment and the name the
last one.  On `.../01/Ueding` extraction yields raw name `"Ueding"`, display
name `"Ueding"` and week string `"01"` (parsing to 1); on
`.../02/Ueding--Schmidt` the display name carries the conjunction marker
`\and` and the week parses to 2. -/
theorem c1_extract_week_before_name (base w n : String) (hw1 : '/' ∉ w.data)
    (hw2 : w ≠ "") (hn1 : '/' ∉ n.data) :
    get_name_and_week (base ++ "/" ++ w ++ "/" ++ n) = (n, nicenameOf n, w) ∧
      get_name_and_week (base ++ "/" ++ "01" ++ "/" ++ "Ueding")
        = ("Ueding", "Ueding", "01") ∧
      pyIntParse "01" = some 1 ∧
      get_name_and_week (base ++ "/" ++ "02" ++ "/" ++ "Ueding--Schmidt")
        = ("Ueding--Schmidt", "Ueding \\and Schmidt", "02") ∧
      pyIntParse "02" = some 2 := by
  refine ⟨get_name_and_week_eq base w n hw1 hw2 hn1, ?_, by decide, ?_, by decide⟩
  · rw [get_name_and_week_eq base "01" "Ueding" (by decide) (by decide) (by decide)]
    decide
  · rw [get_name_and_week_eq base "02" "Ueding--Schmidt" (by decide) (by decide)
      (by decide)]
    decide

/-- Witness for C1: the amended statement at a concrete path. -/
theorem c1_witness :
    ('/' ∉ "01".data) ∧ ("01" : String) ≠ "" ∧ ('/' ∉ "Ueding".data) ∧
      get_name_and_week ("/abgaben" ++ "/" ++ "01" ++ "/" ++ "Ueding")
        = ("Ueding", "Ueding", "01") :=
  ⟨by decide, by decide, by decide,
    (c1_extract_week_before_name "/abgaben" "01" "Ueding" (by decide) (by decide)
      (by decide)).1.trans (by decide)⟩

/-! ### Claim C5 -/

/-- C5: a run whose selection of embeddable files is empty fails with the
empty-submission error (the `assert` before any rendering), and a successful
run always carries a non-empty `for_minted` — rendering only happens when at
least one file was selected. -/
theorem c5_empty_submission (fmt : String → Option String) (compileOk : Bool)
    (tempdir folder : String) (files : List String) :
    (process_folder fmt compileOk tempdir folder files = .error .emptySubmission ↔
      files.filter mintedSel = []) ∧
    ∀ res, process_folder fmt compileOk tempdir folder files = .ok res →
      res.forMinted ≠ [] := by
  rcases buildForMinted_spec fmt tempdir folder files with hok | ⟨f, hf, hfs, herr⟩
  · have hpe := process_folder_eq fmt compileOk tempdir folder files _ hok
    by_cases hfe : files.filter mintedSel = []
    · constructor
      · rw [hpe]
        simp [hfe]
      · intro res hres
        rw [hpe] at hres
        simp [hfe] at hres
    · have hne : ((files.filter mintedSel).map (entryFor tempdir)).isEmpty = false := by
        simp [List.isEmpty_iff, hfe]
      constructor
      · rw [hpe, hne]
        simp only [Bool.false_eq_true, if_false]
        constructor
        · intro h
          exfalso
          cases hp : pyIntParse (get_name_and_week folder).2.2 with
          | none => rw [hp] at h; simp at h
          | some wk =>
            rw [hp] at h
            by_cases hc : compileOk <;> simp [hc] at h
        · intro h
          exact absurd h hfe
      · intro res hres
        rw [hpe, hne] at hres
        simp only [Bool.false_eq_true, if_false] at hres
        cases hp : pyIntParse (get_name_and_week folder).2.2 with
        | none => rw [hp] at hres; simp at hres
        | some wk =>
          rw [hp] at hres
          by_cases hc : compileOk
          · simp only [hc, if_true] at hres
            have hr : successResult tempdir folder files
                ((files.filter mintedSel).map (entryFor tempdir)) wk = res :=
              Except.ok.inj hres
            rw [← hr]
            simp [successResult, hfe]
          · simp only [hc, Bool.false_eq_true, if_false] at hres
            simp at hres
  · have hpe := process_folder_err fmt compileOk tempdir folder files _ herr
    constructor
    · rw [hpe]
      constructor
      · intro h
        simp at h
      · intro h
        exfalso
        have hmem : f ∈ files.filter mintedSel := List.mem_filter.mpr ⟨hf, hfs⟩
        rw [h] at hmem
        simp at hmem
    · intro res hres
      rw [hpe] at hres
      simp at hres

/-- Witness for C5: a submission containing no classifiable file fails with
the empty-submission error. -/
theorem c5_witness :
    ["junk.py"].filter mintedSel = [] ∧
      process_folder (fun _ => some "") true "/tmp/scratch" "/abg/01/Ueding" ["junk.py"]
        = .error .emptySubmission :=
  ⟨by decide,
    (c5_empty_submission (fun _ => some "") true "/tmp/scratch" "/abg/01/Ueding"
      ["junk.py"]).1.mpr (by decide)⟩

/-! ### Claim C3 -/

/-- C3: the week the pipeline parses is the second-to-last path segment; with
files selected (and the formatter healthy, so that no earlier error fires),
the run fails with the metadata error exactly when that segment is not a
base-10 integer literal, and a successful run's `weekId` is the parsed
integer value of that segment. -/
theorem c3_week_parse (fmt : String → Option String) (compileOk : Bool)
    (tempdir base w n : String) (files : List String)
    (hw1 : '/' ∉ w.data) (hw2 : w ≠ "") (hn1 : '/' ∉ n.data)
    (hfmt : ∀ x, (fmt x).isSome) :
    ((get_name_and_week (base ++ "/" ++ w ++ "/" ++ n)).2.2 = w) ∧
    (process_folder fmt compileOk tempdir (base ++ "/" ++ w ++ "/" ++ n) files
        = .error (.metadata w) ↔
      files.filter mintedSel ≠ [] ∧ pyIntParse w = none) ∧
    (∀ res, process_folder fmt compileOk tempdir (base ++ "/" ++ w ++ "/" ++ n) files
        = .ok res → pyIntParse w = some res.weekId) := by
  have hgw := get_name_and_week_eq base w n hw1 hw2 hn1
  have hok := buildForMinted_ok fmt tempdir (base ++ "/" ++ w ++ "/" ++ n) files hfmt
  have hpe := process_folder_eq fmt compileOk tempdir (base ++ "/" ++ w ++ "/" ++ n)
    files _ hok
  rw [hgw] at hpe
  refine ⟨by rw [hgw], ?_, ?_⟩
  · by_cases hfe : files.filter mintedSel = []
    · rw [hpe]
      simp [hfe]
    · have hne : ((files.filter mintedSel).map (entryFor tempdir)).isEmpty = false := by
        simp [List.isEmpty_iff, hfe]
      rw [hpe, hne]
      simp only [Bool.false_eq_true, if_false]
      cases hp : pyIntParse w with
      | none => simp [hfe]
      | some wk =>
        simp only [hfe, true_and]
        constructor
        · intro h
          by_cases hc : compileOk <;> simp [hc] at h
        · intro h
          simp at h
  · intro res hres
    rw [hpe] at hres
    by_cases hfe : files.filter mintedSel = []
    · simp [hfe] at hres
    · have hne : ((files.filter mintedSel).map (entryFor tempdir)).isEmpty = false := by
        simp [List.isEmpty_iff, hfe]
      rw [hne] at hres
      simp only [Bool.false_eq_true, if_false] at hres
      cases hp : pyIntParse w with
      | none => rw [hp] at hres; simp at hres
      | some wk =>
        rw [hp] at hres
        by_cases hc : compileOk
        · simp only [hc, if_true] at hres
          have hr : successResult tempdir (base ++ "/" ++ w ++ "/" ++ n) files
              ((files.filter mintedSel).map (entryFor tempdir)) wk = res :=
            Except.ok.inj hres
          rw [← hr]
          simp [successResult, hgw]
        · simp only [hc, Bool.false_eq_true, if_false] at hres
          simp at hres

/-- Witness for C3: on the spec's example path `.../Ueding/week-one` the week
segment is `"Ueding"`, which is not numeric, so the run fails with the
metadata error. -/
theorem c3_witness :
    ('/' ∉ "Ueding".data) ∧ ("Ueding" : String) ≠ "" ∧ ('/' ∉ "week-one".data) ∧
      (∀ x, ((fun _ : String => some "") x).isSome) ∧
      process_folder (fun _ => some "") true "/tmp/scratch"
          ("/abg" ++ "/" ++ "Ueding" ++ "/" ++ "week-one") ["blatt.c"]
        = .error (.metadata "Ueding") :=
  ⟨by decide, by decide, by decide, fun _ => rfl,
    (c3_week_parse (fun _ => some "") true "/tmp/scratch" "/abg" "Ueding" "week-one"
        ["blatt.c"] (by decide) (by decide) (by decide) (fun _ => rfl)).2.1.mpr
      ⟨by decide, by decide⟩⟩

/-! ### Claims C10 and C4 -/

/-- C10: with its default encodings argument, `decode` always returns a
string: it returns the UTF-8 decoding when that succeeds and otherwise falls
back to the lossy ASCII decode, which never fails. -/
theorem c10_decode_total (s : List Nat) :
    ∃ t : String, decode s = some t ∧
      ((utf8Decode s).map (fun l => (⟨l⟩ : String)) = some t ∨
        (utf8Decode s = none ∧ t = ⟨asciiIgnoreDecode s⟩)) := by
  cases hu : utf8Decode s with
  | none =>
    refine ⟨⟨asciiIgnoreDecode s⟩, ?_, Or.inr ⟨rfl, rfl⟩⟩
    simp [decode, codecDecode, hu]
  | some l =>
    refine ⟨⟨l⟩, ?_, Or.inl (by simp [hu])⟩
    simp [decode, codecDecode, hu]

/-- C4: the lossy fallback `return` sits inside the loop body, so only the
first encoding is ever attempted.  On the byte `0xE9` (a valid latin1 `é`,
invalid as UTF-8) the function returns the lossy ASCII result `""` even
though latin1 — the second entry of the priority list — decodes it, and the
spec's try-each-in-order policy would return `"é"`. -/
theorem c4_decode_skips_remaining_encodings :
    decode [233] = some "" ∧
      latin1Decode [233] = ['é'] ∧
      decodeSpecTry [233] ["utf8", "latin1", "ascii"] = some "é" ∧
      decode [233] ≠ decodeSpecTry [233] ["utf8", "latin1", "ascii"] :=
  ⟨by decide, by decide, by decide, by decide⟩

/-! ### Classifier lemmas for claim C2 -/

theorem lowerExt_pyLowerStr (x : String) : lowerExt (pyLowerStr x) = lowerExt x := by
  unfold lowerExt pyLowerStr
  rw [data_mk, data_mk, map_pyLower_idem]

theorem pyBasename_pyLowerStr (f : String) :
    pyBasename (pyLowerStr f) = pyLowerStr (pyBasename f) := by
  apply String.ext
  show afterLastSlash (f.data.map pyLower) = (afterLastSlash f.data).map pyLower
  exact afterLastSlash_map_pyLower f.data

theorem extOf_afterLastSlash (l : List Char) : extOf (afterLastSlash l) = extOf l := by
  unfold extOf
  rw [afterLastSlash_idem]

theorem lowerExt_pyBasename (f : String) : lowerExt (pyBasename f) = lowerExt f := by
  unfold lowerExt
  apply String.ext
  rw [data_mk, data_mk]
  show extOf ((afterLastSlash f.data).map pyLower) = extOf (f.data.map pyLower)
  rw [← afterLastSlash_map_pyLower, extOf_afterLastSlash]

theorem is_pdf_basename (f : String) : is_pdf f = is_pdf (pyBasename f) := by
  unfold is_pdf
  rw [lowerExt_pyBasename]

theorem lowerExt_of_is_make {x : String} (h : is_make x = true) : lowerExt x = "" := by
  have hm : pyLowerStr x = "makefile" := of_decide_eq_true h
  unfold lowerExt
  rw [hm]
  decide

/-- The five classification predicates of one file, as a list of booleans. -/
def catFlags (f : String) : List Bool :=
  [is_c (pyBasename f), is_txt (pyBasename f), is_make (pyBasename f),
    is_diff (pyBasename f), is_pdf f]

theorem catFlags_count_le_one (f : String) : (catFlags f).count true ≤ 1 := by
  unfold catFlags
  rw [is_pdf_basename f]
  set bn := pyBasename f with hbn
  by_cases hm : is_make bn
  · have he : lowerExt bn = "" := lowerExt_of_is_make hm
    have h1 : is_c bn = false := by simp [is_c, he, EXT_C]
    have h2 : is_txt bn = false := by simp [is_txt, he, EXT_TXT]
    have h4 : is_diff bn = false := by simp [is_diff, he, EXT_DIFF]
    have h5 : is_pdf bn = false := by simp [is_pdf, he]
    simp [h1, h2, hm, h4, h5]
  · by_cases h1 : lowerExt bn ∈ EXT_C
    · have hc : is_c bn = true := decide_eq_true h1
      have h2 : is_txt bn = false := by
        simp only [is_txt, decide_eq_false_iff_not]
        intro h2
        simp [EXT_C] at h1
        rcases h1 with h | h | h | h <;> rw [h] at h2 <;> simp [EXT_TXT] at h2
      have h4 : is_diff bn = false := by
        simp only [is_diff, decide_eq_false_iff_not]
        intro h4
        simp [EXT_C] at h1
        rcases h1 with h | h | h | h <;> rw [h] at h4 <;> simp [EXT_DIFF] at h4
      have h5 : is_pdf bn = false := by
        simp only [is_pdf, decide_eq_false_iff_not]
        intro h5
        rw [h5] at h1
        simp [EXT_C] at h1
      simp [hc, h2, hm, h4, h5]
    · have hc : is_c bn = false := decide_eq_false h1
      by_cases h2 : lowerExt bn ∈ EXT_TXT
      · have ht : is_txt bn = true := decide_eq_true h2
        have h4 : is_diff bn = false := by
          simp only [is_diff, decide_eq_false_iff_not]
          intro h4
          simp [EXT_TXT] at h2
          rcases h2 with h | h <;> rw [h] at h4 <;> simp [EXT_DIFF] at h4
        have h5 : is_pdf bn = false := by
          simp only [is_pdf, decide_eq_false_iff_not]
          intro h5
          rw [h5] at h2
          simp [EXT_TXT] at h2
        simp [hc, ht, hm, h4, h5]
      · have ht : is_txt bn = false := decide_eq_false h2
        by_cases h4 : lowerExt bn ∈ EXT_DIFF
        · have hd : is_diff bn = true := decide_eq_true h4
          have h5 : is_pdf bn = false := by
            simp only [is_pdf, decide_eq_false_iff_not]
            intro h5
            rw [h5] at h4
            simp [EXT_DIFF] at h4
          simp [hc, ht, hm, hd, h5]
        · have hd : is_diff bn = false := decide_eq_false h4
          by_cases h5 : is_pdf bn
          · simp [hc, ht, hm, hd, h5]
          · simp [hc, ht, hm, hd, h5]

theorem not_pdf_of_sel {f : String} (h : mintedSel f = true) : is_pdf f = false := by
  have hcount := catFlags_count_le_one f
  unfold catFlags at hcount
  by_contra hp
  have hp' : is_pdf f = true := by
    cases hpd : is_pdf f
    · exact absurd hpd hp
    · rfl
  unfold mintedSel at h
  rcases Bool.or_eq_true_iff.mp h with h' | h4
  · rcases Bool.or_eq_true_iff.mp h' with h'' | h3
    · rcases Bool.or_eq_true_iff.mp h'' with h1 | h2
      · rw [h1, hp'] at hcount
        rcases hb2 : is_txt (pyBasename f) <;> rcases hb3 : is_make (pyBasename f) <;>
          rcases hb4 : is_diff (pyBasename f) <;>
          simp [hb2, hb3, hb4, List.count_cons] at hcount
      · rw [h2, hp'] at hcount
        rcases hb1 : is_c (pyBasename f) <;> rcases hb3 : is_make (pyBasename f) <;>
          rcases hb4 : is_diff (pyBasename f) <;>
          simp [hb1, hb3, hb4, List.count_cons] at hcount
    · rw [h3, hp'] at hcount
      rcases hb1 : is_c (pyBasename f) <;> rcases hb2 : is_txt (pyBasename f) <;>
        rcases hb4 : is_diff (pyBasename f) <;>
        simp [hb1, hb2, hb4, List.count_cons] at hcount
  · rw [h4, hp'] at hcount
    rcases hb1 : is_c (pyBasename f) <;> rcases hb2 : is_txt (pyBasename f) <;>
      rcases hb3 : is_make (pyBasename f) <;>
      simp [hb1, hb2, hb3, List.count_cons] at hcount

/-- The three output sequences partition the input list. -/
theorem partition_perm (files : List String) :
    (files.filter mintedSel ++ files.filter (fun x => is_pdf x) ++
      files.filter (fun x => !mintedSel x && !is_pdf x)).Perm files := by
  have hpdf : files.filter (fun x => is_pdf x)
      = files.filter (fun x => !mintedSel x && is_pdf x) := by
    apply List.filter_congr
    intro x _
    cases hs : mintedSel x
    · simp
    · simp [not_pdf_of_sel hs]
  rw [hpdf, List.append_assoc]
  have h1 : (files.filter (fun x => !mintedSel x && is_pdf x) ++
      files.filter (fun x => !mintedSel x && !is_pdf x)).Perm
        (files.filter (fun x => !mintedSel x)) := by
    have := List.filter_append_perm (fun x => is_pdf x)
      (files.filter (fun x => !mintedSel x))
    rw [List.filter_filter, List.filter_filter] at this
    have e1 : (fun x => is_pdf x && !mintedSel x) = (fun x => !mintedSel x && is_pdf x) := by
      funext x
      exact Bool.and_comm _ _
    have e2 : (fun x => !is_pdf x && !mintedSel x)
        = (fun x => !mintedSel x && !is_pdf x) := by
      funext x
      exact Bool.and_comm _ _
    rw [e1, e2] at this
    exact this
  exact ((List.Perm.append_left (files.filter mintedSel) h1).trans
    (List.filter_append_perm mintedSel files))

/-! ### Claim C2 -/

/-- C2: classification is total and deterministic: the selected, attachment
and ignored sequences partition the input (no overlap — at most one of the
five predicates holds, and a selected file is never an attachment); the
category is a pure, case-insensitive function of the basename (hence of base
name and extension), with `ignored` as the default; and the pipeline's
`for_minted` is exactly the selected files in input order. -/
theorem c2_classification (files : List String) (f g : String)
    (fmt : String → Option String) (tempdir folder : String)
    (hfmt : ∀ x, (fmt x).isSome) :
    (files.filter mintedSel ++ files.filter (fun x => is_pdf x) ++
      files.filter (fun x => !mintedSel x && !is_pdf x)).Perm files ∧
    (catFlags f).count true ≤ 1 ∧
    (mintedSel f = true → is_pdf f = false) ∧
    (pyBasename f = pyBasename g → classify f = classify g) ∧
    classify (pyLowerStr f) = classify f ∧
    (classify f = .ignored ↔ (mintedSel f = false ∧ is_pdf f = false)) ∧
    buildForMinted fmt tempdir folder files
      = .ok ((files.filter mintedSel).map (entryFor tempdir)) := by
  refine ⟨partition_perm files, catFlags_count_le_one f, fun h => not_pdf_of_sel h,
    ?_, ?_, ?_, buildForMinted_ok fmt tempdir folder files hfmt⟩
  · intro h
    unfold classify
    rw [h, is_pdf_basename f, is_pdf_basename g, h]
  · unfold classify
    rw [pyBasename_pyLowerStr]
    have h1 : is_c (pyLowerStr (pyBasename f)) = is_c (pyBasename f) := by
      unfold is_c
      rw [lowerExt_pyLowerStr]
    have h2 : is_txt (pyLowerStr (pyBasename f)) = is_txt (pyBasename f) := by
      unfold is_txt
      rw [lowerExt_pyLowerStr]
    have h3 : is_make (pyLowerStr (pyBasename f)) = is_make (pyBasename f) := by
      unfold is_make pyLowerStr
      rw [data_mk, map_pyLower_idem]
    have h4 : is_diff (pyLowerStr (pyBasename f)) = is_diff (pyBasename f) := by
      unfold is_diff
      rw [lowerExt_pyLowerStr]
    have h5 : is_pdf (pyLowerStr f) = is_pdf f := by
      unfold is_pdf
      rw [lowerExt_pyLowerStr]
    rw [h1, h2, h3, h4, h5]
  · unfold classify mintedSel
    by_cases h1 : is_c (pyBasename f) <;>
      by_cases h2 : is_txt (pyBasename f) <;>
        by_cases h3 : is_make (pyBasename f) <;>
          by_cases h4 : is_diff (pyBasename f) <;>
            by_cases h5 : is_pdf f <;>
              simp [h1, h2, h3, h4, h5]

/-- Witness for C2: the theorem applied to a concrete mixed file list. -/
theorem c2_witness :
    (∀ x, ((fun _ : String => some "") x).isSome) ∧
      (["sub/blatt_1.c", "plot.PDF", "Makefile", "notes.txt", "fix.patch",
          "junk.o"].filter mintedSel ++
        ["sub/blatt_1.c", "plot.PDF", "Makefile", "notes.txt", "fix.patch",
          "junk.o"].filter (fun x => is_pdf x) ++
        ["sub/blatt_1.c", "plot.PDF", "Makefile", "notes.txt", "fix.patch",
          "junk.o"].filter (fun x => !mintedSel x && !is_pdf x)).Perm
        ["sub/blatt_1.c", "plot.PDF", "Makefile", "notes.txt", "fix.patch",
          "junk.o"] ∧
      classify (pyLowerStr "plot.PDF") = classify "plot.PDF" :=
  ⟨fun _ => rfl,
    (c2_classification _ "plot.PDF" "x" (fun _ => some "") "/t" "/f"
      (fun _ => rfl)).1,
    (c2_classification ["sub/blatt_1.c"] "plot.PDF" "x" (fun _ => some "") "/t" "/f"
      (fun _ => rfl)).2.2.2.2.1⟩

/-- Any successful run's result is the `successResult` of the selected files
and the parsed week. -/
theorem process_ok_inv (fmt : String → Option String) (compileOk : Bool)
    (td folder : String) (files : List String) (res : RunResult)
    (h : process_folder fmt compileOk td folder files = .ok res) :
    ∃ wk, pyIntParse (get_name_and_week folder).2.2 = some wk ∧
      res = successResult td folder files
        ((files.filter mintedSel).map (entryFor td)) wk := by
  rcases buildForMinted_spec fmt td folder files with hok | ⟨f, _, _, herr⟩
  · have hpe := process_folder_eq fmt compileOk td folder files _ hok
    rw [hpe] at h
    by_cases hfe : ((files.filter mintedSel).map (entryFor td)).isEmpty
    · rw [if_pos hfe] at h
      simp at h
    · rw [if_neg hfe] at h
      cases hp : pyIntParse (get_name_and_week folder).2.2 with
      | none => rw [hp] at h; simp at h
      | some wk =>
        rw [hp] at h
        by_cases hc : compileOk
        · simp only [hc, if_true] at h
          exact ⟨wk, rfl, (Except.ok.inj h).symm⟩
        · simp only [hc, Bool.false_eq_true, if_false] at h
          simp at h
  · rw [process_folder_err fmt compileOk td folder files _ herr] at h
    simp at h

/-! ### Claim C7 -/

theorem pdfuniteInputs_cmd (cp out : String) (pdfs : List String) :
    pdfuniteInputs ("pdfunite" :: cp :: (pdfs ++ [out])) = cp :: pdfs := by
  unfold pdfuniteInputs
  rw [List.drop_one]
  show (cp :: (pdfs ++ [out])).dropLast = cp :: pdfs
  rw [← List.cons_append, List.dropLast_concat]

theorem pdfuniteDest_cmd (cp out : String) (pdfs : List String) :
    pdfuniteDest ("pdfunite" :: cp :: (pdfs ++ [out])) = out := by
  unfold pdfuniteDest
  have hsh : "pdfunite" :: cp :: (pdfs ++ [out]) = ("pdfunite" :: cp :: pdfs) ++ [out] := by
    simp
  rw [hsh, List.getLastD_eq_getLast?, List.getLast?_concat]
  rfl

theorem mergedPages_cmd (pages : String → List Nat) (cp out : String)
    (pdfs : List String) :
    mergedPages pages ("pdfunite" :: cp :: (pdfs ++ [out]))
      = pages cp ++ (pdfs.map pages).flatten := by
  unfold mergedPages
  rw [pdfuniteInputs_cmd, List.map_cons, List.flatten_cons]

/-- C7: for every successful run, the merge command feeds the merge tool the
compiled document first and then the attachments in classification order, so
the merged artifact's pages are the compiled pages followed by each
attachment's pages in order; the destination is always the output file, also
when the attachment list is empty, in which case the merged pages are exactly
the compiled document's pages (the step is not skipped). -/
theorem c7_merge_pages (pages : String → List Nat) (fmt : String → Option String)
    (compileOk : Bool) (tempdir folder : String) (files : List String)
    (res : RunResult)
    (h : process_folder fmt compileOk tempdir folder files = .ok res) :
    res.pdfFiles = files.filter (fun x => is_pdf x) ∧
    pdfuniteInputs res.mergeCmd = res.compiledPdfPath :: res.pdfFiles ∧
    pdfuniteDest res.mergeCmd = res.outputPath ∧
    mergedPages pages res.mergeCmd
      = pages res.compiledPdfPath ++ (res.pdfFiles.map pages).flatten ∧
    (res.pdfFiles = [] →
      res.mergeCmd = ["pdfunite", res.compiledPdfPath, res.outputPath] ∧
      mergedPages pages res.mergeCmd = pages res.compiledPdfPath) := by
  obtain ⟨wk, -, hres⟩ := process_ok_inv fmt compileOk tempdir folder files res h
  subst hres
  refine ⟨rfl, pdfuniteInputs_cmd _ _ _, pdfuniteDest_cmd _ _ _,
    mergedPages_cmd pages _ _ _, ?_⟩
  intro hemp
  have hemp' : files.filter (fun f => is_pdf f) = [] := hemp
  constructor
  · show ("pdfunite" :: _ :: (files.filter (fun f => is_pdf f) ++ [_]) : List String) = _
    rw [hemp']
    rfl
  · have hm := mergedPages_cmd pages
      (joinPath tempdir
        ("Review-" ++ (get_name_and_week folder).1 ++ "-" ++
          (get_name_and_week folder).2.2 ++ ".pdf"))
      ("Review-" ++ (get_name_and_week folder).1 ++ "-" ++
        (get_name_and_week folder).2.2 ++ ".pdf")
      (files.filter (fun f => is_pdf f))
    rw [show (successResult tempdir folder files
        ((files.filter mintedSel).map (entryFor tempdir)) wk).mergeCmd
        = "pdfunite" ::
            joinPath tempdir
              ("Review-" ++ (get_name_and_week folder).1 ++ "-" ++
                (get_name_and_week folder).2.2 ++ ".pdf") ::
            (files.filter (fun f => is_pdf f) ++
              ["Review-" ++ (get_name_and_week folder).1 ++ "-" ++
                (get_name_and_week folder).2.2 ++ ".pdf"]) from rfl, hm, hemp']
    simp
    rfl

/-- Witness for C7: a run with one attachment, and the page bookkeeping of
its merge command. -/
theorem c7_witness :
    process_folder (fun _ => some "") true "/t" "/abg/01/Ueding"
        ["blatt.c", "plot.pdf"]
      = .ok (successResult "/t" "/abg/01/Ueding" ["blatt.c", "plot.pdf"]
          (((["blatt.c", "plot.pdf"]).filter mintedSel).map (entryFor "/t")) 1) ∧
    mergedPages
        (fun p => if p = "/t/Review-Ueding-01.pdf" then [10, 11] else [7])
        (successResult "/t" "/abg/01/Ueding" ["blatt.c", "plot.pdf"]
          (((["blatt.c", "plot.pdf"]).filter mintedSel).map (entryFor "/t")) 1).mergeCmd
      = [10, 11, 7] := by
  constructor
  · rfl
  · have h7 := c7_merge_pages
      (fun p => if p = "/t/Review-Ueding-01.pdf" then [10, 11] else [7])
      (fun _ => some "") true "/t" "/abg/01/Ueding" ["blatt.c", "plot.pdf"]
      (successResult "/t" "/abg/01/Ueding" ["blatt.c", "plot.pdf"]
        (((["blatt.c", "plot.pdf"]).filter mintedSel).map (entryFor "/t")) 1)
      rfl
    rw [h7.2.2.2.1]
    decide

/-! ### Claim C8 -/

/-- C8, counterexample: the output file name interpolates the raw week path
segment, not the parsed `weekId`.  For the week segment `"01"` (with
`weekId = 1`) the file is `Review-Ueding-01.pdf`, not `Review-Ueding-1.pdf`
as `Review-<submitterName>-<weekId>` would demand. -/
theorem c8_cex :
    (process_folder (fun _ => some "") true "/t" "/abg/01/Ueding"
        ["blatt.c"]).map (fun r => (r.outputPath, r.weekId))
      = .ok ("Review-Ueding-01.pdf", 1) ∧
    "Review-Ueding-01.pdf" ≠ "Review-Ueding-" ++ toString (1 : Int) ++ ".pdf" :=
  ⟨rfl, by decide⟩

/-- C8, amended: the merged artifact is written under
`Review-<rawName>-<weekSegment>.pdf`, where the week component is the
verbatim second-to-last path segment; the output path is a bare file name
(no slash), hence resolved in the invocation's working directory, and the
intermediate compiled artifact carries the same base name inside the scratch
workspace. -/
theorem c8_output_naming (fmt : String → Option String) (compileOk : Bool)
    (tempdir base w n : String) (files : List String) (res : RunResult)
    (hw1 : '/' ∉ w.data) (hw2 : w ≠ "") (hn1 : '/' ∉ n.data)
    (h : process_folder fmt compileOk tempdir (base ++ "/" ++ w ++ "/" ++ n) files
      = .ok res) :
    res.outputPath = "Review-" ++ n ++ "-" ++ w ++ ".pdf" ∧
    res.pdfBasename = res.outputPath ∧
    ('/' ∉ res.outputPath.data) ∧
    res.compiledPdfPath = joinPath tempdir res.outputPath := by
  obtain ⟨wk, -, hres⟩ :=
    process_ok_inv fmt compileOk tempdir (base ++ "/" ++ w ++ "/" ++ n) files res h
  have hgw := get_name_and_week_eq base w n hw1 hw2 hn1
  subst hres
  have hout : (successResult tempdir (base ++ "/" ++ w ++ "/" ++ n) files
      ((files.filter mintedSel).map (entryFor tempdir)) wk).outputPath
      = "Review-" ++ n ++ "-" ++ w ++ ".pdf" := by
    show "Review-" ++ (get_name_and_week (base ++ "/" ++ w ++ "/" ++ n)).1 ++ "-" ++
        (get_name_and_week (base ++ "/" ++ w ++ "/" ++ n)).2.2 ++ ".pdf" = _
    rw [hgw]
  refine ⟨hout, rfl, ?_, ?_⟩
  · rw [hout]
    intro hmem
    simp only [String.data_append] at hmem
    rcases List.mem_append.mp hmem with hmem1 | hmem2
    · rcases List.mem_append.mp hmem1 with hmem3 | hmem4
      · rcases List.mem_append.mp hmem3 with hmem5 | hmem6
        · rcases List.mem_append.mp hmem5 with hmem7 | hmem8
          · exact absurd hmem7 (by decide)
          · exact hn1 hmem8
        · exact absurd hmem6 (by decide)
      · exact hw1 hmem4
    · exact absurd hmem2 (by decide)
  · rw [hout]
    show joinPath tempdir
        ("Review-" ++ (get_name_and_week (base ++ "/" ++ w ++ "/" ++ n)).1 ++ "-" ++
          (get_name_and_week (base ++ "/" ++ w ++ "/" ++ n)).2.2 ++ ".pdf")
      = joinPath tempdir ("Review-" ++ n ++ "-" ++ w ++ ".pdf")
    rw [hgw]

/-- Witness for C8: the amended naming at a concrete run. -/
theorem c8_witness :
    ('/' ∉ "01".data) ∧ ("01" : String) ≠ "" ∧ ('/' ∉ "Ueding".data) ∧
    process_folder (fun _ => some "") true "/t" ("/abg" ++ "/" ++ "01" ++ "/" ++ "Ueding")
        ["blatt.c"]
      = .ok (successResult "/t" ("/abg" ++ "/" ++ "01" ++ "/" ++ "Ueding") ["blatt.c"]
          ((["blatt.c"].filter mintedSel).map (entryFor "/t")) 1) ∧
    (successResult "/t" ("/abg" ++ "/" ++ "01" ++ "/" ++ "Ueding") ["blatt.c"]
        ((["blatt.c"].filter mintedSel).map (entryFor "/t")) 1).outputPath
      = "Review-Ueding-01.pdf" := by
  refine ⟨by decide, by decide, by decide, rfl, ?_⟩
  have h8 := c8_output_naming (fun _ => some "") true "/t" "/abg" "01" "Ueding"
    ["blatt.c"]
    (successResult "/t" ("/abg" ++ "/" ++ "01" ++ "/" ++ "Ueding") ["blatt.c"]
      ((["blatt.c"].filter mintedSel).map (entryFor "/t")) 1)
    (by decide) (by decide) (by decide) rfl
  rw [h8.1]
  decide

/-! ### Lemmas about the `roots` dictionary of `order_files` (claim C9) -/

theorem addRoot_keys (acc : List (String × List String)) (r e : String) :
    (addRoot acc r e).map Prod.fst =
      if r ∈ acc.map Prod.fst then acc.map Prod.fst else acc.map Prod.fst ++ [r] := by
  induction acc with
  | nil => simp [addRoot]
  | cons p rest ih =>
    obtain ⟨r0, es⟩ := p
    by_cases h : r0 = r
    · subst h
      simp [addRoot]
    · simp only [addRoot, h, if_false, List.map_cons]
      rw [ih]
      by_cases h2 : r ∈ rest.map Prod.fst <;> simp [h2, Ne.symm h]

theorem mem_addRoot_keys (acc : List (String × List String)) (r0 e0 r : String) :
    r ∈ (addRoot acc r0 e0).map Prod.fst ↔ (r ∈ acc.map Prod.fst ∨ r = r0) := by
  rw [addRoot_keys]
  split
  · rename_i h
    exact ⟨fun hh => Or.inl hh, fun hh => hh.elim id (fun hr => hr ▸ h)⟩
  · simp

theorem addRoot_keys_nodup (acc : List (String × List String)) (r e : String)
    (h : (acc.map Prod.fst).Nodup) : ((addRoot acc r e).map Prod.fst).Nodup := by
  rw [addRoot_keys]
  split
  · exact h
  · rename_i hnm
    refine List.Nodup.append h (List.nodup_singleton r) ?_
    intro a ha hb
    rw [List.mem_singleton] at hb
    subst hb
    exact hnm ha

theorem lookup_addRoot_self (acc : List (String × List String)) (r e : String) :
    List.lookup r (addRoot acc r e)
      = some (((List.lookup r acc).getD []) ++ [e]) := by
  induction acc with
  | nil => simp [addRoot, List.lookup]
  | cons p rest ih =>
    obtain ⟨r0, es⟩ := p
    by_cases h : r0 = r
    · subst h
      simp [addRoot, List.lookup]
    · have hb : (r == r0) = false := beq_eq_false_iff_ne.mpr (Ne.symm h)
      simp [addRoot, h, List.lookup, hb, ih]

theorem lookup_addRoot_ne (acc : List (String × List String)) (r e r' : String)
    (h : r' ≠ r) : List.lookup r' (addRoot acc r e) = List.lookup r' acc := by
  induction acc with
  | nil =>
    have hb : (r' == r) = false := beq_eq_false_iff_ne.mpr h
    simp [addRoot, List.lookup, hb]
  | cons p rest ih =>
    obtain ⟨r0, es⟩ := p
    by_cases h0 : r0 = r
    · subst h0
      have hb : (r' == r0) = false := beq_eq_false_iff_ne.mpr h
      simp [addRoot, List.lookup, hb]
    · by_cases h1 : r' = r0
      · subst h1
        simp [addRoot, h0, List.lookup]
      · have hb : (r' == r0) = false := beq_eq_false_iff_ne.mpr h1
        simp [addRoot, h0, List.lookup, hb, ih]

theorem lookup_addRoot_iff (acc : List (String × List String)) (r0 e0 r e : String) :
    (∃ es, List.lookup r (addRoot acc r0 e0) = some es ∧ e ∈ es) ↔
      ((∃ es, List.lookup r acc = some es ∧ e ∈ es) ∨ (r = r0 ∧ e = e0)) := by
  by_cases h : r = r0
  · subst h
    rw [lookup_addRoot_self]
    cases hl : List.lookup r acc with
    | none => simp [hl]
    | some es => simp [hl]
  · rw [lookup_addRoot_ne _ _ _ _ h]
    simp [h]

theorem lookup_of_mem_nodup (acc : List (String × List String)) (r : String)
    (es : List String) (hnd : (acc.map Prod.fst).Nodup) (hmem : (r, es) ∈ acc) :
    List.lookup r acc = some es := by
  induction acc with
  | nil => simp at hmem
  | cons p rest ih =>
    obtain ⟨r0, es0⟩ := p
    rcases List.mem_cons.mp hmem with heq | htl
    · injection heq with h1 h2
      subst h1
      subst h2
      simp [List.lookup]
    · have hne : r ≠ r0 := by
        intro hrr
        subst hrr
        simp at hnd
        exact hnd.1 es htl
      have hb : (r == r0) = false := beq_eq_false_iff_ne.mpr hne
      simp only [List.lookup, hb]
      have hnd' : (rest.map Prod.fst).Nodup := by
        simp at hnd
        exact hnd.2
      exact ih hnd' htl

/-- The characterisation of the `roots` dictionary built by the first loop:
no duplicate keys, keys are exactly the relevant roots, and a key's extension
list holds exactly the extensions of the relevant files with that root. -/
theorem foldl_rootStep_spec (files : List String) :
    ∀ acc : List (String × List String), (acc.map Prod.fst).Nodup →
      (((files.foldl rootStep acc).map Prod.fst).Nodup ∧
        (∀ r, r ∈ (files.foldl rootStep acc).map Prod.fst ↔
          (r ∈ acc.map Prod.fst ∨ r ∈ relevantRoots files)) ∧
        (∀ r e, (∃ es, List.lookup r (files.foldl rootStep acc) = some es ∧ e ∈ es) ↔
          ((∃ es, List.lookup r acc = some es ∧ e ∈ es) ∨
            (e ∈ EXTENSIONS ∧ ∃ f ∈ files, splitext f = (r, e))))) := by
  induction files with
  | nil =>
    intro acc h
    refine ⟨h, ?_, ?_⟩
    · intro r
      simp [relevantRoots]
    · intro r e
      simp
  | cons f rest ih =>
    intro acc hnd
    by_cases hk : (splitext f).2 ∈ EXTENSIONS
    · have hstep : rootStep acc f = addRoot acc (splitext f).1 (splitext f).2 := by
        simp [rootStep, hk]
      have hnd' := addRoot_keys_nodup acc (splitext f).1 (splitext f).2 hnd
      obtain ⟨ih1, ih2, ih3⟩ := ih (addRoot acc (splitext f).1 (splitext f).2) hnd'
      have hrel : relevantRoots (f :: rest) = (splitext f).1 :: relevantRoots rest := by
        simp [relevantRoots, List.filterMap_cons, hk]
      rw [List.foldl_cons, hstep]
      refine ⟨ih1, ?_, ?_⟩
      · intro r
        rw [ih2 r, hrel, mem_addRoot_keys]
        simp only [List.mem_cons]
        tauto
      · intro r e
        rw [ih3 r e, lookup_addRoot_iff]
        have hsp : (r = (splitext f).1 ∧ e = (splitext f).2) ↔ splitext f = (r, e) := by
          constructor
          · rintro ⟨h1, h2⟩
            rw [Prod.ext_iff]
            exact ⟨h1.symm, h2.symm⟩
          · intro h
            rw [Prod.ext_iff] at h
            exact ⟨h.1.symm, h.2.symm⟩
        have hext : splitext f = (r, e) → e ∈ EXTENSIONS := by
          intro h
          rw [Prod.ext_iff] at h
          have h2 : (splitext f).2 = e := h.2
          exact h2 ▸ hk
        simp only [List.mem_cons]
        constructor
        · rintro ((hA | hnew) | ⟨hE, g, hg, hgs⟩)
          · exact Or.inl hA
          · have : splitext f = (r, e) := hsp.mp hnew
            exact Or.inr ⟨hext this, f, Or.inl rfl, this⟩
          · exact Or.inr ⟨hE, g, Or.inr hg, hgs⟩
        · rintro (hA | ⟨hE, g, (rfl | hg), hgs⟩)
          · exact Or.inl (Or.inl hA)
          · exact Or.inl (Or.inr (hsp.mpr hgs))
          · exact Or.inr ⟨hE, g, hg, hgs⟩
    · have hstep : rootStep acc f = acc := by
        simp [rootStep, hk]
      obtain ⟨ih1, ih2, ih3⟩ := ih acc hnd
      have hrel : relevantRoots (f :: rest) = relevantRoots rest := by
        simp [relevantRoots, List.filterMap_cons, hk]
      rw [List.foldl_cons, hstep]
      refine ⟨ih1, ?_, ?_⟩
      · intro r
        rw [ih2 r, hrel]
      · intro r e
        rw [ih3 r e]
        simp only [List.mem_cons]
        constructor
        · rintro (hA | ⟨hE, g, hg, hgs⟩)
          · exact Or.inl hA
          · exact Or.inr ⟨hE, g, Or.inr hg, hgs⟩
        · rintro (hA | ⟨hE, g, (rfl | hg), hgs⟩)
          · exact Or.inl hA
          · exfalso
            rw [Prod.ext_iff] at hgs
            exact hk (hgs.2 ▸ hE)
          · exact Or.inr ⟨hE, g, hg, hgs⟩

theorem buildRoots_keys_nodup (files : List String) :
    ((buildRoots files).map Prod.fst).Nodup :=
  (foldl_rootStep_spec files [] (by simp)).1

theorem mem_buildRoots_keys (files : List String) (r : String) :
    r ∈ (buildRoots files).map Prod.fst ↔ r ∈ relevantRoots files := by
  have h := (foldl_rootStep_spec files [] (by simp)).2.1 r
  simpa using h

theorem lookup_buildRoots (files : List String) (r e : String) :
    (∃ es, List.lookup r (buildRoots files) = some es ∧ e ∈ es) ↔
      (e ∈ EXTENSIONS ∧ ∃ f ∈ files, splitext f = (r, e)) := by
  have h := (foldl_rootStep_spec files [] (by simp)).2.2 r e
  simpa [List.lookup] using h

/-- For a pair of the built dictionary, membership in its extension list is
the occurrence of that extension among the relevant files of its root. -/
theorem mem_exts_buildRoots (files : List String) (r : String) (es : List String)
    (h : (r, es) ∈ buildRoots files) (e : String) :
    e ∈ es ↔ (e ∈ EXTENSIONS ∧ ∃ f ∈ files, splitext f = (r, e)) := by
  have hl := lookup_of_mem_nodup _ _ _ (buildRoots_keys_nodup files) h
  rw [← lookup_buildRoots files r e]
  constructor
  · intro he
    exact ⟨es, hl, he⟩
  · rintro ⟨es', hl', he'⟩
    rw [hl] at hl'
    injection hl' with hee
    exact hee ▸ he'

instance : IsTotal (String × List String) (fun a b => a.1 ≤ b.1) :=
  ⟨fun a b => le_total a.1 b.1⟩

instance : IsTrans (String × List String) (fun a b => a.1 ≤ b.1) :=
  ⟨fun _ _ _ h1 h2 => le_trans h1 h2⟩

theorem flatMap_eq_of_fst (l : List (String × List String))
    (g : String × List String → List String) (h : String → List String)
    (hp : ∀ p ∈ l, g p = h p.1) :
    l.flatMap g = (l.map Prod.fst).flatMap h := by
  induction l with
  | nil => rfl
  | cons p rest ih =>
    simp only [List.flatMap_cons, List.map_cons]
    rw [hp p (by simp), ih (fun q hq => hp q (by simp [hq]))]

theorem sorted_keys_order (files : List String) :
    List.Sorted (fun a b => a ≤ b)
      (((buildRoots files).insertionSort (fun a b => a.1 ≤ b.1)).map Prod.fst) := by
  have hs := List.sorted_insertionSort (fun a b : String × List String => a.1 ≤ b.1)
    (buildRoots files)
  exact List.pairwise_map.mpr hs

theorem keys_sorted_eq_groupKeys (files : List String) :
    ((buildRoots files).insertionSort (fun a b => a.1 ≤ b.1)).map Prod.fst
      = groupKeys files := by
  apply List.eq_of_perm_of_sorted ?_ (sorted_keys_order files)
    (List.sorted_insertionSort _ _)
  have p1 : List.Perm
      (((buildRoots files).insertionSort (fun a b => a.1 ≤ b.1)).map Prod.fst)
      ((buildRoots files).map Prod.fst) := (List.perm_insertionSort _ _).map _
  have p2 : List.Perm (groupKeys files) ((relevantRoots files).dedup) :=
    List.perm_insertionSort _ _
  have p3 : List.Perm ((buildRoots files).map Prod.fst)
      ((relevantRoots files).dedup) := by
    rw [List.perm_ext_iff_of_nodup (buildRoots_keys_nodup files) (List.nodup_dedup _)]
    intro a
    rw [mem_buildRoots_keys, List.mem_dedup]
  exact p1.trans (p3.trans p2.symm)

/-! ### Claim C9 -/

/-- C9: `order_files` as written raises `NameError` (its `EXTENSIONS` is
undefined), shown on the non-empty input `["a.c"]`; with `EXTENSIONS`
modelled from the spec, the ordering mode emits one contiguous block per base
name, blocks sorted lexicographically by base name, and the extensions inside
a block follow the fixed priority list (a sublist of `EXTENSIONS`, header
extensions first). -/
theorem c9_order_files (files : List String) :
    order_files_code ["a.c"] = none ∧
    order_files files = (groupKeys files).flatMap (blockFor files) ∧
    List.Sorted (fun a b => a ≤ b) (groupKeys files) ∧
    ∀ r, List.Sublist
      (EXTENSIONS.filter (fun e => decide (∃ f ∈ files, splitext f = (r, e))))
      EXTENSIONS := by
  refine ⟨by decide, ?_, List.sorted_insertionSort _ _, fun r => List.filter_sublist _⟩
  unfold order_files
  rw [flatMap_eq_of_fst _ _ (blockFor files) ?_, keys_sorted_eq_groupKeys]
  intro p hp
  obtain ⟨r, es⟩ := p
  have hmem : (r, es) ∈ buildRoots files := ((List.perm_insertionSort _ _).mem_iff).mp hp
  unfold blockFor
  show (EXTENSIONS.filter (fun e => decide (e ∈ es))).map (fun e => r ++ e) = _
  congr 1
  apply List.filter_congr
  intro e he
  have hiff := mem_exts_buildRoots files r es hmem e
  have heq : (e ∈ es) ↔ (∃ f ∈ files, splitext f = (r, e)) := by
    rw [hiff]
    simp only [he, true_and]
  simp [heq]

/-! ### Counting embedding directives and extracting section labels (claim C6)

`cntP pat` counts the positions where the pattern occurs; `secsP pat` collects,
for each occurrence, the text from the end of the occurrence up to the next
closing brace (the argument of a `\section*` directive).  `tailSafe pat l`
states that no non-empty proper suffix of `l` shorter than the pattern is a
prefix of the pattern, so no occurrence can straddle the right boundary of
`l` in a concatenation. -/

def patMinted : List Char := "\\inputminted".data

def smark : List Char := "\\section*\x7b".data

def cntP (pat : List Char) : List Char → Nat
  | [] => 0
  | c :: cs => (if pat.isPrefixOf (c :: cs) then 1 else 0) + cntP pat cs

def secsP (pat : List Char) : List Char → List (List Char)
  | [] => []
  | c :: cs =>
    (if pat.isPrefixOf (c :: cs) then
      [((c :: cs).drop pat.length).takeWhile (fun x => x ≠ '\x7d')]
    else []) ++ secsP pat cs

def tailSafe (pat : List Char) : List Char → Bool
  | [] => true
  | c :: cs =>
    (decide (pat.length ≤ cs.length + 1) || !((c :: cs).isPrefixOf pat)) &&
      tailSafe pat cs

/-- A chunk is clear for a pattern when it contains no occurrence and no
occurrence can straddle its right boundary. -/
def chunkClear (pat l : List Char) : Bool :=
  decide (cntP pat l = 0) && tailSafe pat l

/-- The total number of `\inputminted` directives of a document. -/
def countMinted (s : String) : Nat := cntP patMinted s.data

/-- The `\section*` argument texts of a document, in order. -/
def sectionLabels (s : String) : List String :=
  (secsP smark s.data).map (fun l => ⟨l⟩)

theorem isPrefixOf_append_of_le (pat l b : List Char) (h : pat.length ≤ l.length) :
    (pat.isPrefixOf (l ++ b)) = pat.isPrefixOf l := by
  apply Bool.coe_iff_coe.mp
  rw [List.isPrefixOf_iff_prefix, List.isPrefixOf_iff_prefix]
  constructor
  · intro hp
    have he : pat = (l ++ b).take pat.length := List.prefix_iff_eq_take.mp hp
    rw [List.take_append_of_le_length h] at he
    rw [he]
    exact List.take_prefix _ _
  · intro hp
    exact hp.trans (List.prefix_append l b)

theorem prefix_of_short (pat l b : List Char) (h : l.length ≤ pat.length)
    (hp : pat.isPrefixOf (l ++ b) = true) : l.isPrefixOf pat = true := by
  rw [List.isPrefixOf_iff_prefix] at hp ⊢
  have he : pat = (l ++ b).take pat.length := List.prefix_iff_eq_take.mp hp
  have he2 : pat.take l.length = ((l ++ b).take pat.length).take l.length := by
    rw [← he]
  rw [List.take_take, min_eq_left h, List.take_append_of_le_length le_rfl,
    List.take_length] at he2
  rw [← he2]
  exact List.take_prefix _ _

theorem tailSafe_cons (pat : List Char) (c : Char) (cs : List Char) :
    tailSafe pat (c :: cs) =
      ((decide (pat.length ≤ cs.length + 1) || !((c :: cs).isPrefixOf pat)) &&
        tailSafe pat cs) := rfl

theorem cntP_append (pat a b : List Char) (h : tailSafe pat a = true) :
    cntP pat (a ++ b) = cntP pat a + cntP pat b := by
  induction a with
  | nil => simp [cntP]
  | cons c cs ih =>
    rw [tailSafe_cons, Bool.and_eq_true] at h
    obtain ⟨hhead, htail⟩ := h
    have hih := ih htail
    show (if pat.isPrefixOf (c :: cs ++ b) then 1 else 0) + cntP pat (cs ++ b)
      = ((if pat.isPrefixOf (c :: cs) then 1 else 0) + cntP pat cs) + cntP pat b
    rcases Bool.or_eq_true_iff.mp hhead with hlen | hnp
    · have hlen' : pat.length ≤ (c :: cs).length := by
        simpa using of_decide_eq_true hlen
      rw [show (c :: cs ++ b) = (c :: cs) ++ b from rfl,
        isPrefixOf_append_of_le pat (c :: cs) b hlen', hih]
      omega
    · by_cases hll : pat.length ≤ (c :: cs).length
      · rw [show (c :: cs ++ b) = (c :: cs) ++ b from rfl,
          isPrefixOf_append_of_le pat (c :: cs) b hll, hih]
        omega
      · have hlen2 : (c :: cs).length < pat.length := by
          simp only [List.length_cons] at hll ⊢
          omega
        have h1 : pat.isPrefixOf (c :: cs) = false := by
          cases hx : pat.isPrefixOf (c :: cs)
          · rfl
          · have := (List.isPrefixOf_iff_prefix.mp hx).length_le
            omega
        have h2 : pat.isPrefixOf (c :: cs ++ b) = false := by
          cases hx : pat.isPrefixOf (c :: cs ++ b)
          · rfl
          · have hshort := prefix_of_short pat (c :: cs) b (by omega) hx
            rw [hshort] at hnp
            simp at hnp
        rw [h1, h2, hih]
        omega

theorem tailSafe_append (pat a b : List Char) (ha : tailSafe pat a = true)
    (hb : tailSafe pat b = true) : tailSafe pat (a ++ b) = true := by
  induction a with
  | nil => simpa using hb
  | cons c cs ih =>
    rw [tailSafe_cons, Bool.and_eq_true] at ha
    obtain ⟨hhead, htail⟩ := ha
    rw [show (c :: cs) ++ b = c :: (cs ++ b) from rfl, tailSafe_cons,
      Bool.and_eq_true]
    refine ⟨?_, ih htail⟩
    rcases Bool.or_eq_true_iff.mp hhead with hlen | hnp
    · apply Bool.or_eq_true_iff.mpr
      left
      have : pat.length ≤ cs.length + 1 := of_decide_eq_true hlen
      exact decide_eq_true (by simp; omega)
    · by_cases hll : pat.length ≤ (cs ++ b).length + 1
      · exact Bool.or_eq_true_iff.mpr (Or.inl (decide_eq_true (by simpa using hll)))
      · apply Bool.or_eq_true_iff.mpr
        right
        have hnp' : (c :: cs).isPrefixOf pat = false := by
          cases hx : (c :: cs).isPrefixOf pat
          · rfl
          · rw [hx] at hnp
            simp at hnp
        cases hx : (c :: (cs ++ b)).isPrefixOf pat
        · rfl
        · exfalso
          have hpre := List.isPrefixOf_iff_prefix.mp hx
          have : (c :: cs) <+: (c :: (cs ++ b)) := by
            apply List.prefix_iff_eq_take.mpr
            simp [List.take_append_of_le_length (le_refl cs.length)]
          have hcp : (c :: cs) <+: pat := this.trans hpre
          rw [List.isPrefixOf_iff_prefix.mpr hcp] at hnp'
          exact Bool.noConfusion hnp'

theorem chunkClear_cnt_append (pat a b : List Char) (h : chunkClear pat a = true) :
    cntP pat (a ++ b) = cntP pat b := by
  rw [chunkClear, Bool.and_eq_true] at h
  rw [cntP_append pat a b h.2, of_decide_eq_true h.1]
  omega

theorem chunkClear_append (pat a b : List Char) (ha : chunkClear pat a = true)
    (hb : chunkClear pat b = true) : chunkClear pat (a ++ b) = true := by
  rw [chunkClear, Bool.and_eq_true] at ha hb ⊢
  refine ⟨?_, tailSafe_append pat a b ha.2 hb.2⟩
  rw [cntP_append pat a b ha.2, of_decide_eq_true ha.1, of_decide_eq_true hb.1]
  decide

theorem secsP_append_clear (pat a b : List Char) (h : chunkClear pat a = true) :
    secsP pat (a ++ b) = secsP pat b := by
  induction a with
  | nil => rfl
  | cons c cs ih =>
    rw [chunkClear, Bool.and_eq_true] at h
    obtain ⟨hcnt, hts⟩ := h
    have hcnt' : cntP pat (c :: cs) = 0 := of_decide_eq_true hcnt
    have hcnt'' : (if pat.isPrefixOf (c :: cs) then 1 else 0) + cntP pat cs = 0 := hcnt'
    rw [tailSafe_cons, Bool.and_eq_true] at hts
    obtain ⟨hhead, htail⟩ := hts
    have hnomatch : pat.isPrefixOf (c :: (cs ++ b)) = false := by
      cases hx : pat.isPrefixOf (c :: (cs ++ b))
      · rfl
      · exfalso
        by_cases hll : pat.length ≤ (c :: cs).length
        · have : pat.isPrefixOf (c :: cs) = true := by
            rw [← isPrefixOf_append_of_le pat (c :: cs) b hll]
            exact hx
          rw [this] at hcnt''
          simp at hcnt''
        · have hshort := prefix_of_short pat (c :: cs) b (by omega) hx
          rcases Bool.or_eq_true_iff.mp hhead with hlen | hnp
          · have := of_decide_eq_true hlen
            simp at this hll
            omega
          · rw [hshort] at hnp
            simp at hnp
    rw [show (c :: cs) ++ b = c :: (cs ++ b) from rfl]
    show (if pat.isPrefixOf (c :: (cs ++ b)) then
        [((c :: (cs ++ b)).drop pat.length).takeWhile (fun x => x ≠ '\x7d')]
      else []) ++ secsP pat (cs ++ b) = secsP pat b
    rw [hnomatch]
    simp only [Bool.false_eq_true, if_false, List.nil_append]
    apply ih
    rw [chunkClear, Bool.and_eq_true]
    constructor
    · apply decide_eq_true
      omega
    · exact htail

theorem secsP_at_match (p0 : Char) (pt lbl rest : List Char)
    (hlbl : '\x7d' ∉ lbl) :
    secsP (p0 :: pt) (p0 :: (pt ++ (lbl ++ '\x7d' :: rest)))
      = lbl :: secsP (p0 :: pt) (pt ++ (lbl ++ '\x7d' :: rest)) := by
  have hm : (p0 :: pt).isPrefixOf (p0 :: (pt ++ (lbl ++ '\x7d' :: rest))) = true := by
    rw [show p0 :: (pt ++ (lbl ++ '\x7d' :: rest))
        = (p0 :: pt) ++ (lbl ++ '\x7d' :: rest) from rfl]
    exact List.isPrefixOf_iff_prefix.mpr (List.prefix_append _ _)
  show (if (p0 :: pt).isPrefixOf (p0 :: (pt ++ (lbl ++ '\x7d' :: rest))) then
      [((p0 :: (pt ++ (lbl ++ '\x7d' :: rest))).drop (p0 :: pt).length).takeWhile
        (fun x => x ≠ '\x7d')]
    else []) ++ secsP (p0 :: pt) (pt ++ (lbl ++ '\x7d' :: rest)) = _
  rw [hm]
  simp only [if_true]
  have hdrop : (p0 :: (pt ++ (lbl ++ '\x7d' :: rest))).drop (p0 :: pt).length
      = lbl ++ '\x7d' :: rest := by
    rw [List.length_cons, List.drop_succ_cons]
    rw [show pt ++ (lbl ++ '\x7d' :: rest) = pt ++ (lbl ++ '\x7d' :: rest) from rfl]
    exact List.drop_left pt _
  rw [hdrop]
  have htw : (lbl ++ '\x7d' :: rest).takeWhile (fun x => x ≠ '\x7d') = lbl := by
    rw [takeWhile_append_of_all lbl _ (fun c hc => by
      simp only [ne_eq, decide_eq_true_eq]
      intro he
      exact hlbl (he ▸ hc))]
    simp [List.takeWhile_cons]
  rw [htw]
  rfl

/-! ### Clear chunks from character conditions -/

theorem chunkClear_of_noBackslash (pt l : List Char) (h : ∀ c ∈ l, c ≠ '\\') :
    chunkClear ('\\' :: pt) l = true := by
  induction l with
  | nil => rfl
  | cons c cs ih =>
    have hc : c ≠ '\\' := h c (by simp)
    have hcs := ih (fun d hd => h d (by simp [hd]))
    rw [chunkClear, Bool.and_eq_true] at hcs ⊢
    have hnp : ('\\' :: pt).isPrefixOf (c :: cs) = false := by
      show (('\\' == c) && pt.isPrefixOf cs) = false
      have : ('\\' == c) = false := beq_eq_false_iff_ne.mpr (Ne.symm hc)
      rw [this]
      rfl
    have hnp2 : (c :: cs).isPrefixOf ('\\' :: pt) = false := by
      show ((c == '\\') && cs.isPrefixOf pt) = false
      have : (c == '\\') = false := beq_eq_false_iff_ne.mpr hc
      rw [this]
      rfl
    constructor
    · apply decide_eq_true
      show (if ('\\' :: pt).isPrefixOf (c :: cs) then 1 else 0) + cntP ('\\' :: pt) cs = 0
      rw [hnp]
      have := of_decide_eq_true hcs.1
      simpa using this
    · rw [tailSafe_cons, Bool.and_eq_true]
      refine ⟨?_, hcs.2⟩
      apply Bool.or_eq_true_iff.mpr
      right
      rw [hnp2]
      rfl

/-! ### The underscore escaping of labels -/

/-- One escaped character: the flat-map unit of `texEscape`. -/
def escUnit (c : Char) : List Char := if c = '_' then ['\\', '_'] else [c]

theorem pyReplaceGo_escape (repl : List Char) :
    ∀ (fuel : Nat) (l : List Char), l.length ≤ fuel →
      pyReplaceGo ['_'] repl fuel l
        = l.flatMap (fun c => if c = '_' then repl else [c]) := by
  intro fuel
  induction fuel with
  | zero =>
    intro l hl
    cases l with
    | nil => rfl
    | cons c cs => simp at hl
  | succ fuel ih =>
    intro l hl
    cases l with
    | nil => rfl
    | cons c cs =>
      show (if ['_'].isPrefixOf (c :: cs) then
          repl ++ pyReplaceGo ['_'] repl fuel ((c :: cs).drop (max 1 ['_'].length))
        else c :: pyReplaceGo ['_'] repl fuel cs) = _
      by_cases hc : c = '_'
      · subst hc
        have hip : (['_'] : List Char).isPrefixOf ('_' :: cs) = true := by
          simp [List.isPrefixOf]
        rw [hip]
        simp only [if_true, List.flatMap_cons, if_pos rfl]
        rw [show ('_' :: cs).drop (max 1 (['_'] : List Char).length) = cs from rfl]
        rw [ih cs (by simp at hl; omega)]
      · have hip : (['_'] : List Char).isPrefixOf (c :: cs) = false := by
          simp only [List.isPrefixOf, Bool.and_eq_false_iff]
          left
          exact beq_eq_false_iff_ne.mpr (Ne.symm hc)
        rw [hip]
        simp only [Bool.false_eq_true, if_false, List.flatMap_cons, if_neg hc]
        rw [ih cs (by simp at hl; omega)]
        rfl

theorem texEscape_data (s : String) :
    (texEscape s).data = s.data.flatMap escUnit := by
  show pyReplaceGo ['_'] ['\\', '_'] s.data.length s.data = _
  rw [pyReplaceGo_escape ['\\', '_'] s.data.length s.data le_rfl]
  rfl

theorem chunkClear_escUnit (c2 : Char) (pt : List Char) (hc2 : c2 ≠ '_')
    (c : Char) (hc : c ≠ '\\') :
    chunkClear ('\\' :: c2 :: pt) (escUnit c) = true := by
  unfold escUnit
  by_cases h : c = '_'
  · subst h
    rw [if_pos rfl]
    rw [chunkClear, Bool.and_eq_true]
    constructor
    · apply decide_eq_true
      show (if ('\\' :: c2 :: pt).isPrefixOf ['\\', '_'] then 1 else 0) +
          ((if ('\\' :: c2 :: pt).isPrefixOf ['_'] then 1 else 0) + 0) = 0
      have h1 : ('\\' :: c2 :: pt).isPrefixOf ['\\', '_'] = false := by
        show (('\\' == '\\') && ((c2 == '_') && pt.isPrefixOf [])) = false
        have : (c2 == '_') = false := beq_eq_false_iff_ne.mpr hc2
        rw [this]
        simp
      have h2 : ('\\' :: c2 :: pt).isPrefixOf ['_'] = false := by
        show (('\\' == '_') && _) = false
        simp
      rw [h1, h2]
      simp
    · rw [tailSafe_cons, Bool.and_eq_true]
      constructor
      · apply Bool.or_eq_true_iff.mpr
        by_cases hlen : ('\\' :: c2 :: pt).length ≤ 2
        · exact Or.inl (decide_eq_true (by simpa using hlen))
        · right
          have : (['\\', '_'] : List Char).isPrefixOf ('\\' :: c2 :: pt) = false := by
            show (('\\' == '\\') && (('_' == c2) && List.isPrefixOf [] pt)) = false
            have : ('_' == c2) = false := beq_eq_false_iff_ne.mpr (Ne.symm hc2)
            rw [this]
            simp
          rw [this]
          rfl
      · rw [tailSafe_cons, Bool.and_eq_true]
        refine ⟨?_, rfl⟩
        apply Bool.or_eq_true_iff.mpr
        right
        have : (['_'] : List Char).isPrefixOf ('\\' :: c2 :: pt) = false := by
          show (('_' == '\\') && _) = false
          simp
        rw [this]
        rfl
  · rw [if_neg h]
    exact chunkClear_of_noBackslash (c2 :: pt) [c] (fun d hd => by
      rw [List.mem_singleton] at hd
      exact hd ▸ hc)

theorem chunkClear_escFlat (c2 : Char) (pt : List Char) (hc2 : c2 ≠ '_')
    (l : List Char) (hl : ∀ c ∈ l, c ≠ '\\') :
    chunkClear ('\\' :: c2 :: pt) (l.flatMap escUnit) = true := by
  induction l with
  | nil => rfl
  | cons c cs ih =>
    rw [List.flatMap_cons]
    exact chunkClear_append _ _ _
      (chunkClear_escUnit c2 pt hc2 c (hl c (by simp)))
      (ih (fun d hd => hl d (by simp [hd])))

theorem chunkClear_texEscape (c2 : Char) (pt : List Char) (hc2 : c2 ≠ '_')
    (s : String) (hs : ∀ c ∈ s.data, c ≠ '\\') :
    chunkClear ('\\' :: c2 :: pt) (texEscape s).data = true := by
  rw [texEscape_data]
  exact chunkClear_escFlat c2 pt hc2 s.data hs

theorem mem_texEscape (s : String) (c : Char) (h : c ∈ (texEscape s).data) :
    c = '\\' ∨ c = '_' ∨ c ∈ s.data := by
  rw [texEscape_data] at h
  obtain ⟨d, hd, hc⟩ := List.mem_flatMap.mp h
  unfold escUnit at hc
  by_cases hdu : d = '_'
  · rw [if_pos hdu] at hc
    simp only [List.mem_cons, List.mem_singleton] at hc
    rcases hc with h1 | h1 | h1
    · exact Or.inl h1
    · exact Or.inr (Or.inl h1)
    · simp at h1
  · rw [if_neg hdu] at hc
    rw [List.mem_singleton] at hc
    exact Or.inr (Or.inr (hc ▸ hd))

/-- The scanner asserting every underscore is immediately preceded by a
backslash. -/
def underscoresEscaped : List Char → Bool
  | [] => true
  | '\\' :: '_' :: rest => underscoresEscaped rest
  | '_' :: _ => false
  | _ :: rest => underscoresEscaped rest

theorem escapeFlat_head_not_underscore (l : List Char) :
    (l.flatMap escUnit).head? ≠ some '_' := by
  cases l with
  | nil => simp
  | cons c cs =>
    rw [List.flatMap_cons]
    unfold escUnit
    by_cases h : c = '_'
    · rw [if_pos h]
      simp
    · rw [if_neg h]
      simp [h]

theorem underscoresEscaped_flatMap (l : List Char) (h : ∀ c ∈ l, c ≠ '\\') :
    underscoresEscaped (l.flatMap escUnit) = true := by
  induction l with
  | nil => rfl
  | cons c cs ih =>
    have hcs := ih (fun d hd => h d (by simp [hd]))
    rw [List.flatMap_cons]
    by_cases hc : c = '_'
    · subst hc
      have he : escUnit '_' = ['\\', '_'] := rfl
      rw [he]
      show underscoresEscaped ('\\' :: '_' :: cs.flatMap escUnit) = true
      exact hcs
    · have hcb : c ≠ '\\' := h c (by simp)
      have he : escUnit c = [c] := by
        unfold escUnit
        rw [if_neg hc]
      rw [he]
      show underscoresEscaped (c :: cs.flatMap escUnit) = true
      rw [underscoresEscaped.eq_def]
      split
      · rfl
      · rename_i rest heq
        injection heq with h1 h2
        exact absurd h1 hcb
      · rename_i rest heq
        injection heq with h1 h2
        exact absurd h1 hc
      · rename_i x rest hne1 hne2 heq
        injection heq with h1 h2
        rw [← h2]
        exact hcs

/-- Every underscore of an escaped label sits right after a backslash. -/
theorem underscoresEscaped_texEscape (s : String) (h : ∀ c ∈ s.data, c ≠ '\\') :
    underscoresEscaped (texEscape s).data = true := by
  rw [texEscape_data]
  exact underscoresEscaped_flatMap s.data h

/-! ### The characters of a rendered integer -/

def decDigits : List Char := ['0', '1', '2', '3', '4', '5', '6', '7', '8', '9']

theorem digitChar_mem (n : Nat) (h : n < 10) : Nat.digitChar n ∈ decDigits := by
  interval_cases n <;> decide

theorem toDigitsCore_mem (fuel : Nat) :
    ∀ (n : Nat) (acc : List Char), (∀ c ∈ acc, c ∈ decDigits) →
      ∀ c ∈ Nat.toDigitsCore 10 fuel n acc, c ∈ decDigits := by
  induction fuel with
  | zero =>
    intro n acc hacc c hc
    exact hacc c hc
  | succ fuel ih =>
    intro n acc hacc c hc
    have hstep : Nat.toDigitsCore 10 (fuel + 1) n acc
        = if n / 10 = 0 then Nat.digitChar (n % 10) :: acc
          else Nat.toDigitsCore 10 fuel (n / 10) (Nat.digitChar (n % 10) :: acc) := rfl
    rw [hstep] at hc
    have haccd : ∀ d ∈ Nat.digitChar (n % 10) :: acc, d ∈ decDigits := by
      intro d hd
      rcases List.mem_cons.mp hd with rfl | hm
      · exact digitChar_mem _ (Nat.mod_lt _ (by norm_num))
      · exact hacc _ hm
    by_cases h0 : n / 10 = 0
    · rw [if_pos h0] at hc
      exact haccd c hc
    · rw [if_neg h0] at hc
      exact ih (n / 10) _ haccd c hc

theorem repr_nat_mem (n : Nat) : ∀ c ∈ (Nat.repr n).data, c ∈ decDigits := by
  intro c hc
  have hd : (Nat.repr n).data = Nat.toDigitsCore 10 (n + 1) n [] := rfl
  rw [hd] at hc
  exact toDigitsCore_mem (n + 1) n [] (by simp) c hc

theorem toString_int_mem (i : Int) :
    ∀ c ∈ (toString i).data, c = '-' ∨ c ∈ decDigits := by
  cases i with
  | ofNat m =>
    intro c hc
    have hd : (toString (Int.ofNat m)).data = (Nat.repr m).data := rfl
    rw [hd] at hc
    exact Or.inr (repr_nat_mem m c hc)
  | negSucc m =>
    intro c hc
    have hd : (toString (Int.negSucc m)).data = '-' :: (Nat.repr (m + 1)).data := rfl
    rw [hd] at hc
    rcases List.mem_cons.mp hc with rfl | hm
    · exact Or.inl rfl
    · exact Or.inr (repr_nat_mem (m + 1) c hm)

theorem toString_int_noBackslash (i : Int) : ∀ c ∈ (toString i).data, c ≠ '\\' := by
  intro c hc
  rcases toString_int_mem i c hc with rfl | hm
  · decide
  · intro he
    subst he
    exact absurd hm (by decide)

/-! ### From `String.join` to character lists -/

theorem foldl_append_data (l : List String) :
    ∀ init : String, (l.foldl (fun a b => a ++ b) init).data
      = init.data ++ (l.map String.data).flatten := by
  induction l with
  | nil =>
    intro init
    simp
  | cons s rest ih =>
    intro init
    rw [List.foldl_cons, ih (init ++ s)]
    simp [String.data_append]

theorem join_data (l : List String) :
    (String.join l).data = (l.map String.data).flatten := by
  show (l.foldl (fun a b => a ++ b) "").data = _
  rw [foldl_append_data l ""]
  rfl

/-! ### Per-entry facts about the loop body -/

/-- The tameness conditions on a rendered entry under which the block
counting and extraction work. -/
def entryTame (e : String × String × String) : Prop :=
  chunkClear patMinted e.1.data = true ∧ chunkClear smark e.1.data = true ∧
  ('\x7d' ∉ e.1.data) ∧
  chunkClear patMinted e.2.1.data = true ∧ chunkClear smark e.2.1.data = true ∧
  chunkClear patMinted e.2.2.data = true ∧ chunkClear smark e.2.2.data = true

theorem entryBlock_data (e : String × String × String) :
    (entryBlock e).data = tmplB1.data ++ (e.1.data ++ (tmplB2.data ++ (e.2.2.data ++
      (tmplB3.data ++ (e.2.1.data ++ tmplB4.data))))) := by
  unfold entryBlock
  simp [String.data_append]

/-! ### Concrete template-chunk facts -/

set_option maxRecDepth 40000

/-- The loop-body text after the closing brace of the section title. -/
def tmplB2tail : String :=
  "\n\n\\inputminted[\n    linenos=true,\n    fontfamily=tt,\n    fontsize=\\small,\n    frame=none,\n]\x7b"

theorem tmplB2_split : tmplB2.data = '\x7d' :: tmplB2tail.data := rfl

theorem tmplB1_split : tmplB1.data = '\n' :: smark := rfl

theorem minted_H1 : chunkClear patMinted tmplH1.data = true := by decide

theorem minted_H2 : chunkClear patMinted tmplH2.data = true := by decide

theorem minted_H3 : chunkClear patMinted tmplH3.data = true := by decide

theorem minted_F_cnt : cntP patMinted tmplF.data = 0 := by decide

theorem minted_B1 : chunkClear patMinted tmplB1.data = true := by decide

theorem minted_B2_cnt : cntP patMinted tmplB2.data = 1 := by decide

theorem minted_B2_safe : tailSafe patMinted tmplB2.data = true := by decide

theorem minted_B3 : chunkClear patMinted tmplB3.data = true := by decide

theorem minted_B4 : chunkClear patMinted tmplB4.data = true := by decide

theorem smark_H1 : chunkClear smark tmplH1.data = true := by decide

theorem smark_H2 : chunkClear smark tmplH2.data = true := by decide

theorem smark_H3 : chunkClear smark tmplH3.data = true := by decide

theorem smark_F_secs : secsP smark tmplF.data = ["Zus\u00e4tzliche Kommentare".data] := by
  decide

theorem smark_newline : chunkClear smark ['\n'] = true := by decide

theorem smark_tail_clear : chunkClear smark "section*\x7b".data = true := by decide

theorem smark_brace : chunkClear smark ['\x7d'] = true := by decide

theorem smark_B2tail : chunkClear smark tmplB2tail.data = true := by decide

theorem smark_B3 : chunkClear smark tmplB3.data = true := by decide

theorem smark_B4 : chunkClear smark tmplB4.data = true := by decide

theorem minted_langs :
    chunkClear patMinted "c".data = true ∧ chunkClear patMinted "text".data = true ∧
    chunkClear patMinted "make".data = true ∧ chunkClear patMinted "diff".data = true := by
  decide

theorem smark_langs :
    chunkClear smark "c".data = true ∧ chunkClear smark "text".data = true ∧
    chunkClear smark "make".data = true ∧ chunkClear smark "diff".data = true := by
  decide

/-! ### Counting and extracting over one expanded loop body -/

theorem cntP_entryBlock_tail (e : String × String × String) (tail : List Char)
    (he : entryTame e) :
    cntP patMinted ((entryBlock e).data ++ tail) = 1 + cntP patMinted tail := by
  obtain ⟨h1, _, _, h4, _, h6, _⟩ := he
  rw [entryBlock_data]
  simp only [List.append_assoc]
  rw [chunkClear_cnt_append _ _ _ minted_B1, chunkClear_cnt_append _ _ _ h1,
    cntP_append _ _ _ minted_B2_safe, minted_B2_cnt,
    chunkClear_cnt_append _ _ _ h6, chunkClear_cnt_append _ _ _ minted_B3,
    chunkClear_cnt_append _ _ _ h4, chunkClear_cnt_append _ _ _ minted_B4]

theorem secsP_smark_match (lbl rest : List Char) (hlbl : '\x7d' ∉ lbl) :
    secsP smark ('\\' :: ("section*\x7b".data ++ (lbl ++ '\x7d' :: rest)))
      = lbl :: secsP smark ("section*\x7b".data ++ (lbl ++ '\x7d' :: rest)) :=
  secsP_at_match '\\' "section*\x7b".data lbl rest hlbl

/-- Scanning one section block: the leading newline and marker, the brace-free
label, the closing brace and the rest. -/
theorem secs_marker_block (lbl T : List Char) (hc : chunkClear smark lbl = true)
    (hb : '\x7d' ∉ lbl) :
    secsP smark ('\n' :: (smark ++ (lbl ++ ('\x7d' :: T)))) = lbl :: secsP smark T := by
  have h1 := secsP_append_clear smark ['\n'] (smark ++ (lbl ++ ('\x7d' :: T)))
    smark_newline
  rw [List.singleton_append] at h1
  rw [h1]
  have h2 : secsP smark (smark ++ (lbl ++ ('\x7d' :: T)))
      = lbl :: secsP smark ("section*\x7b".data ++ (lbl ++ '\x7d' :: T)) :=
    secsP_smark_match lbl T hb
  rw [h2, secsP_append_clear _ _ _ smark_tail_clear, secsP_append_clear _ _ _ hc]
  have h3 := secsP_append_clear smark ['\x7d'] T smark_brace
  rw [List.singleton_append] at h3
  rw [h3]

theorem secsP_entryBlock_tail (e : String × String × String) (tail : List Char)
    (he : entryTame e) :
    secsP smark ((entryBlock e).data ++ tail) = e.1.data :: secsP smark tail := by
  obtain ⟨_, h2, h3, _, h5, _, h7⟩ := he
  have hdata : (entryBlock e).data ++ tail
      = '\n' :: (smark ++ (e.1.data ++ ('\x7d' :: (tmplB2tail.data ++ (e.2.2.data ++
          (tmplB3.data ++ (e.2.1.data ++ (tmplB4.data ++ tail)))))))) := by
    rw [entryBlock_data, tmplB1_split, tmplB2_split]
    simp [List.append_assoc]
  rw [hdata, secs_marker_block _ _ h2 h3, secsP_append_clear _ _ _ smark_B2tail,
    secsP_append_clear _ _ _ h7, secsP_append_clear _ _ _ smark_B3,
    secsP_append_clear _ _ _ h5, secsP_append_clear _ _ _ smark_B4]

theorem cnt_blocks_tail (entries : List (String × String × String)) (tail : List Char)
    (h : ∀ e ∈ entries, entryTame e) :
    cntP patMinted ((entries.map (fun e => (entryBlock e).data)).flatten ++ tail)
      = entries.length + cntP patMinted tail := by
  induction entries with
  | nil => simp
  | cons e rest ih =>
    rw [List.map_cons, List.flatten_cons, List.append_assoc,
      cntP_entryBlock_tail e _ (h e (by simp)),
      ih (fun e' he' => h e' (by simp [he']))]
    simp
    omega

theorem secs_blocks_tail (entries : List (String × String × String)) (tail : List Char)
    (h : ∀ e ∈ entries, entryTame e) :
    secsP smark ((entries.map (fun e => (entryBlock e).data)).flatten ++ tail)
      = entries.map (fun e => e.1.data) ++ secsP smark tail := by
  induction entries with
  | nil => simp
  | cons e rest ih =>
    rw [List.map_cons, List.flatten_cons, List.append_assoc,
      secsP_entryBlock_tail e _ (h e (by simp)),
      ih (fun e' he' => h e' (by simp [he'])), List.map_cons, List.cons_append]

theorem renderDoc_data (name : String) (wk : Int)
    (entries : List (String × String × String)) :
    (renderDoc name wk entries).data
      = tmplH1.data ++ ((toString wk).data ++ (tmplH2.data ++ (name.data ++
          (tmplH3.data ++ ((entries.map (fun e => (entryBlock e).data)).flatten ++
            tmplF.data))))) := by
  unfold renderDoc
  simp only [String.data_append, join_data, List.append_assoc, List.map_map]
  rfl

theorem entryFor_fst (td f : String) : (entryFor td f).1 = texEscape f := by
  unfold entryFor
  repeat' split
  all_goals rfl

theorem entryFor_path (td f : String) : (entryFor td f).2.1 = joinPath td f := by
  unfold entryFor
  repeat' split
  all_goals rfl

theorem entryFor_lang (td f : String) :
    (entryFor td f).2.2 = "c" ∨ (entryFor td f).2.2 = "text" ∨
    (entryFor td f).2.2 = "make" ∨ (entryFor td f).2.2 = "diff" := by
  unfold entryFor
  repeat' split
  · exact Or.inl rfl
  · exact Or.inr (Or.inl rfl)
  · exact Or.inr (Or.inr (Or.inl rfl))
  · exact Or.inr (Or.inr (Or.inr rfl))

theorem mem_joinPath (a b : String) (c : Char) (h : c ∈ (joinPath a b).data) :
    c ∈ a.data ∨ c = '/' ∨ c ∈ b.data := by
  unfold joinPath at h
  split at h
  · exact Or.inr (Or.inr h)
  · split at h
    · rw [String.data_append] at h
      rcases List.mem_append.mp h with h1 | h1
      · exact Or.inl h1
      · exact Or.inr (Or.inr h1)
    · rw [String.data_append, String.data_append] at h
      rcases List.mem_append.mp h with h1 | h1
      · rcases List.mem_append.mp h1 with h2 | h2
        · exact Or.inl h2
        · rw [List.mem_singleton] at h2
          exact Or.inr (Or.inl h2)
      · exact Or.inr (Or.inr h1)

theorem patMinted_shape : patMinted = '\\' :: 'i' :: "nputminted".data := rfl

theorem smark_shape : smark = '\\' :: 's' :: "ection*\x7b".data := rfl

theorem entryTame_of_entryFor (td f : String)
    (htd : ∀ c ∈ td.data, c ≠ '\\')
    (hf : ∀ c ∈ f.data, c ≠ '\\') (hfb : '\x7d' ∉ f.data) :
    entryTame (entryFor td f) := by
  have hfst := entryFor_fst td f
  have hpath := entryFor_path td f
  have hjp : ∀ c ∈ (joinPath td f).data, c ≠ '\\' := by
    intro c hc
    rcases mem_joinPath td f c hc with h1 | h1 | h1
    · exact htd c h1
    · subst h1
      decide
    · exact hf c h1
  refine ⟨?_, ?_, ?_, ?_, ?_, ?_, ?_⟩
  · rw [hfst, patMinted_shape]
    exact chunkClear_texEscape 'i' _ (by decide) f hf
  · rw [hfst, smark_shape]
    exact chunkClear_texEscape 's' _ (by decide) f hf
  · rw [hfst]
    intro hc
    rcases mem_texEscape f _ hc with h1 | h1 | h1
    · exact absurd h1 (by decide)
    · exact absurd h1 (by decide)
    · exact hfb h1
  · rw [hpath, patMinted_shape]
    exact chunkClear_of_noBackslash _ _ hjp
  · rw [hpath, smark_shape]
    exact chunkClear_of_noBackslash _ _ hjp
  · rcases entryFor_lang td f with h | h | h | h <;> rw [h]
    exacts [minted_langs.1, minted_langs.2.1, minted_langs.2.2.1, minted_langs.2.2.2]
  · rcases entryFor_lang td f with h | h | h | h <;> rw [h]
    exacts [smark_langs.1, smark_langs.2.1, smark_langs.2.2.1, smark_langs.2.2.2]

/-! ### Claim C6 -/

/-- C6: for every non-empty selection, the rendered document contains exactly
one embedding directive per entry; the section labels read back from the
document are the entries' labels in entry order (followed by the template's
own closing section); the labels are the underscore-escaped input paths in
input order; and escaping puts a backslash before every underscore. -/
theorem c6_template_blocks (name : String) (wk : Int) (tempdir : String)
    (files : List String)
    (hname : ∀ c ∈ name.data, c ≠ '\\')
    (htd : ∀ c ∈ tempdir.data, c ≠ '\\')
    (hfiles : ∀ f ∈ files, (∀ c ∈ f.data, c ≠ '\\') ∧ '\x7d' ∉ f.data)
    (hne : files.filter mintedSel ≠ []) :
    ((files.filter mintedSel).map (entryFor tempdir)) ≠ [] ∧
    countMinted (renderDoc name wk ((files.filter mintedSel).map (entryFor tempdir)))
      = ((files.filter mintedSel).map (entryFor tempdir)).length ∧
    sectionLabels (renderDoc name wk ((files.filter mintedSel).map (entryFor tempdir)))
      = ((files.filter mintedSel).map (entryFor tempdir)).map (fun e => e.1)
        ++ ["Zusätzliche Kommentare"] ∧
    ((files.filter mintedSel).map (entryFor tempdir)).map (fun e => e.1)
      = (files.filter mintedSel).map (fun f => texEscape f) ∧
    ∀ f ∈ files, underscoresEscaped (texEscape f).data = true := by
  have htame : ∀ e ∈ (files.filter mintedSel).map (entryFor tempdir), entryTame e := by
    intro e he
    obtain ⟨f, hf, rfl⟩ := List.mem_map.mp he
    have hf' := hfiles f (List.mem_filter.mp hf).1
    exact entryTame_of_entryFor tempdir f htd hf'.1 hf'.2
  have hwkM : chunkClear patMinted (toString wk).data = true := by
    rw [patMinted_shape]
    exact chunkClear_of_noBackslash _ _ (toString_int_noBackslash wk)
  have hwkS : chunkClear smark (toString wk).data = true := by
    rw [smark_shape]
    exact chunkClear_of_noBackslash _ _ (toString_int_noBackslash wk)
  have hnameM : chunkClear patMinted name.data = true := by
    rw [patMinted_shape]
    exact chunkClear_of_noBackslash _ _ hname
  have hnameS : chunkClear smark name.data = true := by
    rw [smark_shape]
    exact chunkClear_of_noBackslash _ _ hname
  refine ⟨by simpa using hne, ?_, ?_, ?_, ?_⟩
  · unfold countMinted
    rw [renderDoc_data, chunkClear_cnt_append _ _ _ minted_H1,
      chunkClear_cnt_append _ _ _ hwkM, chunkClear_cnt_append _ _ _ minted_H2,
      chunkClear_cnt_append _ _ _ hnameM, chunkClear_cnt_append _ _ _ minted_H3,
      cnt_blocks_tail _ tmplF.data htame, minted_F_cnt]
    omega
  · unfold sectionLabels
    rw [renderDoc_data, secsP_append_clear _ _ _ smark_H1,
      secsP_append_clear _ _ _ hwkS, secsP_append_clear _ _ _ smark_H2,
      secsP_append_clear _ _ _ hnameS, secsP_append_clear _ _ _ smark_H3,
      secs_blocks_tail _ tmplF.data htame, smark_F_secs]
    rw [List.map_append, List.map_map]
    rfl
  · rw [List.map_map]
    apply List.map_congr_left
    intro f _
    show (entryFor tempdir f).1 = texEscape f
    exact entryFor_fst tempdir f
  · intro f hf
    exact underscoresEscaped_texEscape f (hfiles f hf).1

/-- Witness for C6: one selected file with an underscore in its name. -/
theorem c6_witness :
    (∀ c ∈ ("Ueding" : String).data, c ≠ '\\') ∧
    (∀ c ∈ ("/t" : String).data, c ≠ '\\') ∧
    (∀ f ∈ (["blatt_1.c"] : List String),
      (∀ c ∈ f.data, c ≠ '\\') ∧ '\x7d' ∉ f.data) ∧
    (["blatt_1.c"].filter mintedSel ≠ []) ∧
    countMinted (renderDoc "Ueding" 1
        (((["blatt_1.c"] : List String).filter mintedSel).map (entryFor "/t"))) = 1 ∧
    sectionLabels (renderDoc "Ueding" 1
        (((["blatt_1.c"] : List String).filter mintedSel).map (entryFor "/t")))
      = ["blatt\\_1.c", "Zusätzliche Kommentare"] := by
  have h := c6_template_blocks "Ueding" 1 "/t" ["blatt_1.c"] (by decide) (by decide)
    (by decide) (by decide)
  refine ⟨by decide, by decide, by decide, by decide, ?_, ?_⟩
  · rw [h.2.1]
    decide
  · rw [h.2.2.1]
    decide

end CPReview
